import Mathlib

/-!
Verification of the gostree order-statistic red-black tree (src/tree.go).

The Go code is pointer-based with a self-referential sentinel node and
parent pointers.  We embed it shallowly: trees are an inductive type that
stores exactly the per-node fields of the Go Node struct that are not
parent pointers (color, key, size, left, right), and the parent pointer
is represented by an explicit path of frames (a zipper), which records,
for each ancestor, its color/key/stored size, which side the descent
took, and the sibling subtree.  Each Go loop that walks parent pointers
becomes a recursion over the path whose branches mirror the loop body
case by case; loop exits that the Go code reaches by re-testing the loop
condition are returned directly, with a comment naming the source line
that forces the exit.

The sentinel's own mutable fields (color, size, left, right, parent) are
tracked in the GoTree state, with the parent field updated at exactly the
program points where the Go code assigns to it (transplant, line 306, and
deleteNode, line 276, when the replacement is the sentinel).
-/

namespace Gostree

/-- Color of a red-black tree node (src/tree.go lines 5-10). -/
inductive Color where
  | red
  | black
deriving DecidableEq, Repr

/-- A red-black tree with the per-node fields of the Go Node struct
(src/tree.go lines 12-19) except the parent pointer: color, left child,
key, stored subtree size, right child.  The nil constructor is the
sentinel as a child link. -/
inductive RBT (α : Type) where
  | nil
  | node (c : Color) (l : RBT α) (k : α) (sz : Nat) (r : RBT α)
deriving DecidableEq, Repr

variable {α : Type}

/-- Stored size field of a node; the sentinel's size is 0
(src/tree.go lines 18, 32). -/
def size : RBT α → Nat
  | .nil => 0
  | .node _ _ _ sz _ => sz

/-- Color field of a node; the sentinel is BLACK (src/tree.go line 31). -/
def rootColor : RBT α → Color
  | .nil => .black
  | .node c _ _ _ _ => c

/-- Left child link. -/
def leftT : RBT α → RBT α
  | .nil => .nil
  | .node _ l _ _ _ => l

/-- Right child link. -/
def rightT : RBT α → RBT α
  | .nil => .nil
  | .node _ _ _ _ r => r

/-- Number of nodes actually present in a subtree (the value the size
field is supposed to hold). -/
def realSize : RBT α → Nat
  | .nil => 0
  | .node _ l _ _ r => realSize l + realSize r + 1

/-- In-order traversal of the keys. -/
def inorder : RBT α → List α
  | .nil => []
  | .node _ l k _ r => inorder l ++ k :: inorder r

/-- Writing BLACK to the color field of the focused node
(for example src/tree.go lines 131, 387).  Writing to the sentinel
leaves it BLACK, which is what those writes do. -/
def blackenRoot : RBT α → RBT α
  | .nil => .nil
  | .node _ l k sz r => .node .black l k sz r

/-- Writing RED to the color field of the focused node
(for example src/tree.go line 339).  The Go code only reaches such a
write on a real node when the tree invariants hold; on the sentinel we
leave the tree unchanged. -/
def reddenRoot : RBT α → RBT α
  | .nil => .nil
  | .node _ l k sz r => .node .red l k sz r

/-- Which side of its parent a node hangs on. -/
inductive Dir where
  | left
  | right
deriving DecidableEq, Repr

/-- One ancestor on a path from a node to the root: the parent's color,
key and stored size, the side the descent took (d), and the subtree on
the other side (sib).  This is the explicit form of the Go parent
pointer chain. -/
structure Frame (α : Type) where
  d : Dir
  c : Color
  k : α
  sz : Nat
  sib : RBT α
deriving DecidableEq, Repr

/-- A path of frames; the head is the immediate parent, the last frame
is the root of the tree. -/
abbrev Path (α : Type) := List (Frame α)

/-- Rebuild the parent node from a frame and the subtree in its hole. -/
def plugF (f : Frame α) (z : RBT α) : RBT α :=
  match f.d with
  | .left => .node f.c z f.k f.sz f.sib
  | .right => .node f.c f.sib f.k f.sz z

/-- Plug a subtree into a path, rebuilding the whole tree. -/
def fill (z : RBT α) : Path α → RBT α
  | [] => z
  | f :: rest => fill (plugF f z) rest

variable [LinearOrder α]

/-- leftRotate (src/tree.go lines 134-155).  The rotated node's right
child takes its place; sizes of the two rotated nodes are recomputed
from the stored sizes of their new children, first the lower node
(line 153) then the upper (line 154).  Colors are not touched.  The Go
code only calls it when the right child is a real node; otherwise we
return the tree unchanged. -/
def leftRotateT : RBT α → RBT α
  | .node c l k _ (.node rc rl rk _ rr) =>
    let nl : RBT α := .node c l k (size l + size rl + 1) rl
    .node rc nl rk (size nl + size rr + 1) rr
  | t => t

/-- rightRotate (src/tree.go lines 157-178), mirror of leftRotate. -/
def rightRotateT : RBT α → RBT α
  | .node c (.node lc ll lk _ lr) k _ r =>
    let nr : RBT α := .node c lr k (size lr + size r + 1) r
    .node lc ll lk (size ll + size nr + 1) nr
  | t => t

/-- Downward walk of Insert (src/tree.go lines 55-68): find the
insertion position, incrementing the size of every node on the path
(line 62) and recording the ancestors as frames.  Keys not less than
the current key go right (lines 63-67), so duplicates go right. -/
def descend : RBT α → α → Path α → Path α
  | .nil, _, acc => acc
  | .node c l k sz r, key, acc =>
    if key < k then
      descend l key ({ d := .left, c := c, k := k, sz := sz + 1, sib := r } :: acc)
    else
      descend r key ({ d := .right, c := c, k := k, sz := sz + 1, sib := l } :: acc)

/-- insertFixup (src/tree.go lines 84-132), on the zipper.  The loop
runs while the parent is RED (line 86); the focus z is the Go newNode
subtree.  An empty path means the parent is the sentinel, which is
BLACK, so the loop exits.  A single red frame with no grandparent would
mean a RED root, which cannot arise from a valid tree; the Go code
would dereference the sentinel as grandparent there, and we exit.
Case 1 (red uncle, lines 92-97 and 112-117) recolors and moves the
focus to the grandparent, shortening the path by two.  Cases 2-3
(black uncle, lines 98-107 and 118-127) rotate; afterwards the focus
node's parent is the node recolored BLACK at line 105 (or 125), so the
loop condition at line 86 fails and the loop exits; we return the
rebuilt tree directly. -/
def insFix : RBT α → Path α → RBT α
  | z, [] => z
  | z, [p] => fill z [p]
  | z, p :: g :: rest =>
    if p.c = .black then
      -- loop condition at line 86 is false
      fill z (p :: g :: rest)
    else if rootColor g.sib = .red then
      -- Case 1: uncle is RED - recolor and move up (lines 92-97, 112-117)
      insFix (plugF { g with c := .red, sib := blackenRoot g.sib }
                (plugF { p with c := .black } z)) rest
    else
      match g.d with
      | .left =>
        -- parent is left child of grandparent (line 90)
        -- Case 2 (lines 99-103): focus is an inner (right) child: leftRotate(parent)
        let z2 := if p.d = .right then leftRotateT (plugF p z) else plugF p z
        -- Case 3 (lines 104-107): blacken the (new) parent, redden the
        -- grandparent, rightRotate(grandparent); the loop then exits
        fill (rightRotateT (.node .red (blackenRoot z2) g.k g.sz g.sib)) rest
      | .right =>
        -- mirror (lines 118-127)
        let z2 := if p.d = .left then rightRotateT (plugF p z) else plugF p z
        fill (leftRotateT (.node .red g.sib g.k g.sz (blackenRoot z2))) rest

/-- Insert (src/tree.go lines 43-82): create a RED node of size 1
(lines 46-53), walk down (lines 55-68), attach, fix up (line 81), and
force the root BLACK (line 131). -/
def insertGo (t : RBT α) (key : α) : RBT α :=
  blackenRoot (insFix (.node .red .nil key 1 .nil) (descend t key []))

/-- search (src/tree.go lines 186-196), returning the zipper at the
first node whose key equals the searched key, or none. -/
def searchZ : RBT α → α → Path α → Option (RBT α × Path α)
  | .nil, _, _ => none
  | .node c l k sz r, key, acc =>
    if key < k then
      searchZ l key ({ d := .left, c := c, k := k, sz := sz, sib := r } :: acc)
    else if k < key then
      searchZ r key ({ d := .right, c := c, k := k, sz := sz, sib := l } :: acc)
    else
      some (.node c l k sz r, acc)

/-- Search (src/tree.go lines 180-184): membership test. -/
def searchGo (t : RBT α) (key : α) : Bool :=
  (searchZ t key []).isSome

/-- selectNode (src/tree.go lines 209-222): descend by left-subtree
sizes; returns the found node, or the sentinel if the walk falls off
the tree (only possible when the size fields are wrong). -/
def selectNodeGo : RBT α → Nat → RBT α
  | .nil, _ => .nil
  | .node c l k sz r, j =>
    if j < size l then selectNodeGo l j
    else if j = size l then .node c l k sz r
    else selectNodeGo r (j - size l - 1)

/-- Key field of a node; the sentinel's key is the zero value of the
type, which Go's Select would return if selectNode fell off the tree. -/
def keyD [Inhabited α] : RBT α → α
  | .nil => default
  | .node _ _ k _ _ => k

/-- Select (src/tree.go lines 198-207).  The index is a Go int; it
returns (zero, false) iff k is negative or at least root.size
(lines 201-203), else the key of the node found by selectNode. -/
def selectGo [Inhabited α] (t : RBT α) (k : Int) : Option α :=
  if k < 0 ∨ (size t : Int) ≤ k then none
  else some (keyD (selectNodeGo t k.toNat))

/-- Rank (src/tree.go lines 224-243): count accumulated on the way
down; going right adds left.size + 1 (line 233), stopping at an equal
key adds left.size (line 237). -/
def rankGo : RBT α → α → Nat
  | .nil, _ => 0
  | .node _ l k _ r, key =>
    if key < k then rankGo l key
    else if k < key then size l + 1 + rankGo r key
    else size l

/-- minimum (src/tree.go lines 309-315) as a zipper: walk to the
leftmost node of the subtree, accumulating frames. -/
def minZ : RBT α → Path α → RBT α × Path α
  | .nil, acc => (.nil, acc)
  | .node c .nil key sz r, acc => (.node c .nil key sz r, acc)
  | .node c (.node lc ll lk lsz lr) k sz r, acc =>
    minZ (.node lc ll lk lsz lr) ({ d := .left, c := c, k := k, sz := sz, sib := r } :: acc)

/-- updateSizeUpward (src/tree.go lines 317-323): walk from the hole to
the root, resetting each frame's stored size to the sum of its two
children's sizes plus one.  The argument m is the size of the subtree
currently in the hole. -/
def updSz : Path α → Nat → Path α
  | [], _ => []
  | f :: rest, m =>
    let sz' := m + size f.sib + 1
    { f with sz := sz' } :: updSz rest sz'

/-- Cases 3 and 4 of deleteFixup when the focus is a left child
(src/tree.go lines 341-355), given the parent's color at that point,
its key and stored size, the sibling s (which has at least one RED
child), and the rest of the path.  Case 3 (lines 342-347): if the
sibling's right child is BLACK, blacken its left child, redden the
sibling, rightRotate(sibling).  Case 4 (lines 349-354): the sibling
takes the parent's color, the parent goes BLACK, the sibling's right
child goes BLACK, leftRotate(parent); the Go code then sets the focus
to the root (line 354), exits the loop, and blackens the root
(line 387). -/
def delCase34L (z : RBT α) (pc : Color) (pk : α) (psz : Nat) (s : RBT α)
    (rst : Path α) : RBT α :=
  let s3 : RBT α :=
    match s with
    | .node _ (.node .red a ax asz b) sk ssz c2 =>
      if rootColor c2 = .black then
        rightRotateT (.node .red (.node .black a ax asz b) sk ssz c2)
      else s
    | _ => s
  match s3 with
  | .node _ s4l s4k s4sz s4r =>
    blackenRoot (fill
      (leftRotateT (.node .black z pk psz (.node pc s4l s4k s4sz (blackenRoot s4r))))
      rst)
  | .nil =>
    -- unreachable: a sibling with a RED child is a real node
    blackenRoot (fill (.node .black z pk psz .nil) rst)

/-- Mirror of delCase34L for a right-child focus
(src/tree.go lines 370-384). -/
def delCase34R (z : RBT α) (pc : Color) (pk : α) (psz : Nat) (s : RBT α)
    (rst : Path α) : RBT α :=
  let s3 : RBT α :=
    match s with
    | .node _ c2 sk ssz (.node .red a ax asz b) =>
      if rootColor c2 = .black then
        leftRotateT (.node .red c2 sk ssz (.node .black a ax asz b))
      else s
    | _ => s
  match s3 with
  | .node _ s4l s4k s4sz s4r =>
    blackenRoot (fill
      (rightRotateT (.node .black (.node pc (blackenRoot s4l) s4k s4sz s4r) pk psz z))
      rst)
  | .nil =>
    blackenRoot (fill (.node .black .nil pk psz z) rst)

/-- deleteFixup (src/tree.go lines 325-388), on the zipper.  The loop
runs while the focus is not the root and is BLACK (line 327); on exit
the focus is colored BLACK (line 387).  When the sibling is RED
(Case 1, lines 330-336 and 358-364), it is a real node; the rotation
pushes the focus one level down under a RED parent frame, and the new
sibling is the red sibling's near child, after which only the exiting
cases can run: Case 2 then moves the focus to the now-RED parent and
the loop condition fails, and Cases 3-4 end with the focus at the
root.  When the parent frame is BLACK and Case 2 (lines 337-340,
366-369) runs, the focus moves up one frame and the loop continues,
which is the only recursive call. -/
def delFix : RBT α → Path α → RBT α
  | z, [] => blackenRoot z
  | z, p :: rest =>
    if rootColor z = .red then
      -- loop condition at line 327 is false; line 387 blackens the focus
      fill (blackenRoot z) (p :: rest)
    else
      match p.d with
      | .left =>
        match p.sib with
        | .node .red sl sk _ sr =>
          -- Case 1 (lines 330-336): recolor sibling BLACK and parent RED,
          -- leftRotate(parent); the new sibling is sl, the parent frame
          -- is now RED under a BLACK frame carrying sk
          let m1 := size z + size sl + 1
          let q : Frame α := { d := .left, c := .black, k := sk, sz := m1 + size sr + 1, sib := sr }
          if rootColor (leftT sl) = .black ∧ rootColor (rightT sl) = .black then
            -- Case 2 (lines 337-340): redden sl, move the focus to the
            -- parent, which is RED, so the loop exits and line 387 runs
            fill (blackenRoot (.node .red z p.k m1 (reddenRoot sl))) (q :: rest)
          else
            delCase34L z .red p.k m1 sl (q :: rest)
        | _ =>
          let s := p.sib
          if rootColor (leftT s) = .black ∧ rootColor (rightT s) = .black then
            -- Case 2 (lines 337-340) without Case 1: redden the sibling
            -- and move the focus to the parent
            if p.c = .red ∨ rest = [] then
              -- the parent is RED or is the root: the loop exits
              fill (blackenRoot (plugF { p with sib := reddenRoot s } z)) rest
            else
              delFix (plugF { p with sib := reddenRoot s } z) rest
          else
            delCase34L z p.c p.k p.sz s rest
      | .right =>
        match p.sib with
        | .node .red sl sk _ sr =>
          -- mirror Case 1 (lines 358-364): rightRotate(parent); the new
          -- sibling is sr
          let m1 := size sr + size z + 1
          let q : Frame α := { d := .right, c := .black, k := sk, sz := size sl + m1 + 1, sib := sl }
          if rootColor (rightT sr) = .black ∧ rootColor (leftT sr) = .black then
            fill (blackenRoot (.node .red (reddenRoot sr) p.k m1 z)) (q :: rest)
          else
            delCase34R z .red p.k m1 sr (q :: rest)
        | _ =>
          let s := p.sib
          if rootColor (rightT s) = .black ∧ rootColor (leftT s) = .black then
            if p.c = .red ∨ rest = [] then
              fill (blackenRoot (plugF { p with sib := reddenRoot s } z)) rest
            else
              delFix (plugF { p with sib := reddenRoot s } z) rest
          else
            delCase34R z p.c p.k p.sz s rest

/-- deleteNode (src/tree.go lines 256-295) on the zipper of the target
node.  Returns the new tree and, when the Go code assigns the
sentinel's parent pointer (transplant line 306 with a sentinel
replacement, or line 276), whether the assigned value is the sentinel
itself.  The three structural cases follow lines 261-287; sizes are
recomputed upward from the replacement's parent (line 290); deleteFixup
runs iff the physically removed node was BLACK (lines 292-294). -/
def deleteNodeGo : RBT α → Path α → RBT α × Option Bool
  | .nil, path => (fill .nil path, none)
  | .node c l _ _ r, path =>
    match l, r with
    | .nil, _ =>
      -- no left child (lines 261-264): splice the right child in
      let path' := updSz path (size r)
      let res := if c = .black then delFix r path' else fill r path'
      (res, if r = .nil then some (decide (path = [])) else none)
    | .node lc ll lk lsz lr, .nil =>
      -- no right child (lines 265-268): splice the left child in
      let lnode : RBT α := .node lc ll lk lsz lr
      let path' := updSz path (size lnode)
      let res := if c = .black then delFix lnode path' else fill lnode path'
      (res, none)
    | .node lc ll lk lsz lr, .node rc rl rk rsz rr =>
      -- two children (lines 269-287): the in-order successor of the
      -- target, the minimum of the right subtree, is physically removed
      -- and spliced into the target's position with the target's color;
      -- the hole left by the successor's own right child is fixed up
      let lnode : RBT α := .node lc ll lk lsz lr
      let rnode : RBT α := .node rc rl rk rsz rr
      match minZ rnode [] with
      | (.node sc _ sk ssz sr, sucP) =>
        let fullPath : Path α :=
          sucP ++ ({ d := .right, c := c, k := sk, sz := ssz, sib := lnode } :: path)
        let path2 := updSz fullPath (size sr)
        let res := if sc = .black then delFix sr path2 else fill sr path2
        (res, if sr = .nil then some false else none)
      | (.nil, _) =>
        -- unreachable: the right subtree is a real node
        (fill .nil path, none)

/-- Delete (src/tree.go lines 245-254): search for the key; if absent
return false with the tree untouched, else remove that node.  The
second component of the result is the sentinel parent-pointer write, as
in deleteNodeGo. -/
def deleteGo (t : RBT α) (key : α) : Bool × RBT α × Option Bool :=
  match searchZ t key [] with
  | none => (false, t, none)
  | some (f, path) =>
    let (t', w) := deleteNodeGo f path
    (true, t', w)

/-- The Tree struct (src/tree.go lines 21-24) together with the mutable
fields of its sentinel node.  The three link fields are tracked as
"does this link point to the sentinel itself"; the Go code only ever
assigns the sentinel's parent field (transplant line 306, deleteNode
line 276), so the other fields are updated by no operation. -/
structure GoTree (α : Type) where
  root : RBT α
  nilColor : Color
  nilSize : Nat
  nilLeftSelf : Bool
  nilRightSelf : Bool
  nilParentSelf : Bool
deriving DecidableEq, Repr

/-- NewTree (src/tree.go lines 26-41): empty root, sentinel BLACK with
size 0 and all three links pointing to itself. -/
def newTree (α : Type) : GoTree α :=
  { root := .nil
    nilColor := .black
    nilSize := 0
    nilLeftSelf := true
    nilRightSelf := true
    nilParentSelf := true }

/-- Insert on the tree state.  Insert writes no sentinel field (the
new node's links are set on the new node itself, and all rotation
writes to child links of the sentinel are guarded, line 138/161). -/
def treeInsert (t : GoTree α) (key : α) : GoTree α :=
  { t with root := insertGo t.root key }

/-- Delete on the tree state: updates the root and, when the code
assigned the sentinel's parent pointer, the tracked self-pointer flag. -/
def treeDelete (t : GoTree α) (key : α) : Bool × GoTree α :=
  match deleteGo t.root key with
  | (b, r, w) =>
    (b, { t with root := r, nilParentSelf := w.getD t.nilParentSelf })

/-- One public call on a tree.  Search, Select and Rank are read-only
descents (src/tree.go lines 180-243) and leave the state unchanged. -/
inductive Op (α : Type) where
  | insert (k : α)
  | delete (k : α)
  | search (k : α)
  | select (k : Int)
  | rank (k : α)

/-- Apply one public call to the state. -/
def applyOp (t : GoTree α) : Op α → GoTree α
  | .insert k => treeInsert t k
  | .delete k => (treeDelete t k).2
  | .search _ => t
  | .select _ => t
  | .rank _ => t

/-- Apply a sequence of public calls, oldest first. -/
def applyOps (t : GoTree α) : List (Op α) → GoTree α
  | [] => t
  | op :: ops => applyOps (applyOp t op) ops

/-- A state is reachable when some sequence of public calls builds it
from a fresh tree. -/
def Reachable (t : GoTree α) : Prop :=
  ∃ ops : List (Op α), t = applyOps (newTree α) ops

/-- The size invariant of §4.6 of the specification: every real node's
stored size equals the sum of its children's stored sizes plus one. -/
def sizeOK : RBT α → Prop
  | .nil => True
  | .node _ l _ sz r => sizeOK l ∧ sizeOK r ∧ sz = size l + size r + 1

/-- Size correctness of a path relative to a hole currently holding a
subtree of stored size m: each frame's sibling is size-correct and each
frame's stored size is the sum of its children's sizes plus one. -/
def PathSz : Path α → Nat → Prop
  | [], _ => True
  | f :: rest, m => sizeOK f.sib ∧ f.sz = m + size f.sib + 1 ∧ PathSz rest f.sz

/-- The pure-tree form of Insert's downward walk followed by attaching
the new RED node of size 1: sizes on the path are incremented and keys
not less than the current key go right.  Filling the new node into the
path built by descend gives exactly this tree. -/
def insertAt : RBT α → α → RBT α
  | .nil, key => .node .red .nil key 1 .nil
  | .node c l k sz r, key =>
    if key < k then .node c (insertAt l key) k (sz + 1) r
    else .node c l k (sz + 1) (insertAt r key)

/-- What one frame does to the in-order listing of the subtree in its
hole. -/
def wrapF (f : Frame α) (X : List α) : List α :=
  match f.d with
  | .left => X ++ f.k :: inorder f.sib
  | .right => inorder f.sib ++ f.k :: X

/-- What a whole path does to the in-order listing of the subtree in
its hole. -/
def ctxWrap : Path α → List α → List α
  | [], X => X
  | f :: rest, X => ctxWrap rest (wrapF f X)

/-- The red-black balance invariant of §3 of the specification:
Bal t c n states that t's root has color c, no RED node has a RED
child, and every downward path to a sentinel passes through n BLACK
nodes. -/
inductive Bal : RBT α → Color → Nat → Prop where
  | nil : Bal .nil .black 0
  | red {l : RBT α} {k sz r n} :
    Bal l .black n → Bal r .black n → Bal (.node .red l k sz r) .red n
  | black {l : RBT α} {k sz r n cl cr} :
    Bal l cl n → Bal r cr n → Bal (.node .black l k sz r) .black (n + 1)

/-- Color of the node owning the first frame of a path; the sentinel
(empty path) counts as BLACK. -/
def headColor : Path α → Color
  | [] => .black
  | f :: _ => f.c

/-- Balance validity of a path around a hole expecting black height n:
every frame's sibling is balanced at the height its position demands,
and a RED frame has a BLACK-rooted sibling and a BLACK parent frame. -/
def CtxOk : Path α → Nat → Prop
  | [], _ => True
  | f :: rest, n =>
    match f.c with
    | .black => (∃ cs, Bal f.sib cs n) ∧ CtxOk rest (n + 1)
    | .red => Bal f.sib .black n ∧ headColor rest = .black ∧ CtxOk rest n

/-- Color of the root of the tree a path rebuilds: the last frame's
color, or the given color of the hole content when the path is empty. -/
def lastColorD : Path α → Color → Color
  | [], c => c
  | f :: rest, _ => lastColorD rest f.c

/-- The root frame of the path, if any, is BLACK. -/
def rootOk : Path α → Prop
  | [] => True
  | f :: rest => lastColorD rest f.c = .black

/-- Height of a tree, used to bound the descent loops. -/
def heightT : RBT α → Nat
  | .nil => 0
  | .node _ l _ _ r => max (heightT l) (heightT r) + 1

/-- The insertFixup while-loop (src/tree.go line 86) with explicit
fuel: each recursive call is one execution of the loop body, and none
returns a result until the loop condition fails.  Running out of fuel
returns none. -/
def insFixL : Nat → RBT α → Path α → Option (RBT α)
  | 0, _, _ => none
  | _ + 1, z, [] => some z
  | _ + 1, z, [p] => some (fill z [p])
  | fuel + 1, z, p :: g :: rest =>
    if p.c = .black then
      some (fill z (p :: g :: rest))
    else if rootColor g.sib = .red then
      insFixL fuel (plugF { g with c := .red, sib := blackenRoot g.sib }
        (plugF { p with c := .black } z)) rest
    else
      match g.d with
      | .left =>
        -- after Case 3 the Go focus is the left child of the rotated
        -- subtree, under a frame carrying the BLACK node of line 105
        let z2 := if p.d = .right then leftRotateT (plugF p z) else plugF p z
        match rightRotateT (.node .red (blackenRoot z2) g.k g.sz g.sib) with
        | .node sc sl sk ssz sr =>
          insFixL fuel sl ({ d := .left, c := sc, k := sk, sz := ssz, sib := sr } :: rest)
        | .nil => insFixL fuel .nil rest
      | .right =>
        let z2 := if p.d = .left then rightRotateT (plugF p z) else plugF p z
        match leftRotateT (.node .red g.sib g.k g.sz (blackenRoot z2)) with
        | .node sc sl sk ssz sr =>
          insFixL fuel sr ({ d := .right, c := sc, k := sk, sz := ssz, sib := sl } :: rest)
        | .nil => insFixL fuel .nil rest

/-- The deleteFixup while-loop (src/tree.go line 327) with explicit
fuel: each recursive call is one execution of the loop body (a body
execution may include Case 1 followed by one of Cases 2-4, as in the
source). -/
def delFixL : Nat → RBT α → Path α → Option (RBT α)
  | 0, _, _ => none
  | _ + 1, z, [] => some (blackenRoot z)
  | fuel + 1, z, p :: rest =>
    if rootColor z = .red then
      some (fill (blackenRoot z) (p :: rest))
    else
      match p.d with
      | .left =>
        match p.sib with
        | .node .red sl sk _ sr =>
          let m1 := size z + size sl + 1
          let q : Frame α := { d := .left, c := .black, k := sk, sz := m1 + size sr + 1, sib := sr }
          if rootColor (leftT sl) = .black ∧ rootColor (rightT sl) = .black then
            delFixL fuel (.node .red z p.k m1 (reddenRoot sl)) (q :: rest)
          else
            some (delCase34L z .red p.k m1 sl (q :: rest))
        | _ =>
          let s := p.sib
          if rootColor (leftT s) = .black ∧ rootColor (rightT s) = .black then
            delFixL fuel (plugF { p with sib := reddenRoot s } z) rest
          else
            some (delCase34L z p.c p.k p.sz s rest)
      | .right =>
        match p.sib with
        | .node .red sl sk _ sr =>
          let m1 := size sr + size z + 1
          let q : Frame α := { d := .right, c := .black, k := sk, sz := size sl + m1 + 1, sib := sl }
          if rootColor (rightT sr) = .black ∧ rootColor (leftT sr) = .black then
            delFixL fuel (.node .red (reddenRoot sr) p.k m1 z) (q :: rest)
          else
            some (delCase34R z .red p.k m1 sr (q :: rest))
        | _ =>
          let s := p.sib
          if rootColor (rightT s) = .black ∧ rootColor (leftT s) = .black then
            delFixL fuel (plugF { p with sib := reddenRoot s } z) rest
          else
            some (delCase34R z p.c p.k p.sz s rest)

/-- The Insert downward walk (src/tree.go lines 59-68) with explicit
fuel, one recursive call per loop iteration. -/
def descendL : Nat → RBT α → α → Path α → Option (Path α)
  | 0, _, _, _ => none
  | _ + 1, .nil, _, acc => some acc
  | fuel + 1, .node c l k sz r, key, acc =>
    if key < k then
      descendL fuel l key ({ d := .left, c := c, k := k, sz := sz + 1, sib := r } :: acc)
    else
      descendL fuel r key ({ d := .right, c := c, k := k, sz := sz + 1, sib := l } :: acc)

/-- The search loop (src/tree.go line 188) with explicit fuel. -/
def searchL : Nat → RBT α → α → Option Bool
  | 0, _, _ => none
  | _ + 1, .nil, _ => some false
  | fuel + 1, .node _ l k _ r, key =>
    if key < k then searchL fuel l key
    else if k < key then searchL fuel r key
    else some true

/-- The selectNode loop (src/tree.go line 210) with explicit fuel. -/
def selectL : Nat → RBT α → Nat → Option (RBT α)
  | 0, _, _ => none
  | _ + 1, .nil, _ => some .nil
  | fuel + 1, .node c l k sz r, j =>
    if j < size l then selectL fuel l j
    else if j = size l then some (.node c l k sz r)
    else selectL fuel r (j - size l - 1)

/-- The Rank loop (src/tree.go line 229) with explicit fuel and
accumulator, as in the source. -/
def rankL : Nat → RBT α → α → Nat → Option Nat
  | 0, _, _, _ => none
  | _ + 1, .nil, _, acc => some acc
  | fuel + 1, .node _ l k _ r, key, acc =>
    if key < k then rankL fuel l key acc
    else if k < key then rankL fuel r key (acc + size l + 1)
    else some (acc + size l)

/-- The minimum loop (src/tree.go line 311) with explicit fuel. -/
def minL : Nat → RBT α → Option (RBT α)
  | 0, _ => none
  | _ + 1, .nil => some .nil
  | _ + 1, .node c .nil k sz r => some (.node c .nil k sz r)
  | fuel + 1, .node _ (.node lc ll lk lsz lr) _ _ _ =>
    minL fuel (.node lc ll lk lsz lr)

/-- The updateSizeUpward loop (src/tree.go line 319) with explicit
fuel. -/
def updSzL : Nat → Path α → Nat → Option (Path α)
  | 0, _, _ => none
  | _ + 1, [], _ => some []
  | fuel + 1, f :: rest, m =>
    let sz' := m + size f.sib + 1
    match updSzL fuel rest sz' with
    | some rest' => some ({ f with sz := sz' } :: rest')
    | none => none

/-- The state invariant of §3 of the specification: the root subtree is
a balanced red-black tree with a BLACK root, the stored sizes are
correct, the in-order listing is non-decreasing, and the sentinel is
BLACK with size 0 and self-pointing child links. -/
def WF (t : GoTree α) : Prop :=
  (∃ n, Bal t.root .black n) ∧ sizeOK t.root ∧
    (inorder t.root).Sorted (· ≤ ·) ∧
    t.nilColor = .black ∧ t.nilSize = 0 ∧
    t.nilLeftSelf = true ∧ t.nilRightSelf = true

end Gostree

namespace Gostree

variable {α : Type} [LinearOrder α]

/-! ### Basic facts about the tree accessors -/

@[simp] theorem size_nil : size (.nil : RBT α) = 0 := rfl

@[simp] theorem size_node (c : Color) (l : RBT α) (k : α) (sz : Nat) (r : RBT α) :
    size (.node c l k sz r) = sz := rfl

@[simp] theorem rootColor_nil : rootColor (.nil : RBT α) = .black := rfl

@[simp] theorem rootColor_node (c : Color) (l : RBT α) (k : α) (sz : Nat) (r : RBT α) :
    rootColor (.node c l k sz r) = c := rfl

@[simp] theorem inorder_nil : inorder (.nil : RBT α) = [] := rfl

@[simp] theorem inorder_node (c : Color) (l : RBT α) (k : α) (sz : Nat) (r : RBT α) :
    inorder (.node c l k sz r) = inorder l ++ k :: inorder r := rfl

@[simp] theorem blackenRoot_inorder (t : RBT α) : inorder (blackenRoot t) = inorder t := by
  cases t <;> rfl

@[simp] theorem reddenRoot_inorder (t : RBT α) : inorder (reddenRoot t) = inorder t := by
  cases t <;> rfl

@[simp] theorem size_blackenRoot (t : RBT α) : size (blackenRoot t) = size t := by
  cases t <;> rfl

@[simp] theorem reddenRoot_size (t : RBT α) : size (reddenRoot t) = size t := by
  cases t <;> rfl

@[simp] theorem rootColor_blackenRoot (t : RBT α) : rootColor (blackenRoot t) = .black := by
  cases t <;> rfl

@[simp] theorem fill_nilPath (z : RBT α) : fill z ([] : Path α) = z := rfl

@[simp] theorem fill_cons (z : RBT α) (f : Frame α) (rest : Path α) :
    fill z (f :: rest) = fill (plugF f z) rest := rfl

theorem fill_append (z : RBT α) (p q : Path α) :
    fill z (p ++ q) = fill (fill z p) q := by
  induction p generalizing z with
  | nil => rfl
  | cons f rest ih => simp [ih]

@[simp] theorem inorder_plugF (f : Frame α) (z : RBT α) :
    inorder (plugF f z) = wrapF f (inorder z) := by
  cases hd : f.d <;> simp [plugF, wrapF, hd]

theorem inorder_fill (p : Path α) : ∀ z : RBT α, inorder (fill z p) = ctxWrap p (inorder z) := by
  induction p with
  | nil => intro z; rfl
  | cons f rest ih => intro z; simp [ctxWrap, ih]

theorem ctxWrap_shape (p : Path α) :
    ∃ pre suf : List α, ∀ X : List α, ctxWrap p X = pre ++ X ++ suf := by
  induction p with
  | nil => exact ⟨[], [], fun X => by simp [ctxWrap]⟩
  | cons f rest ih =>
    obtain ⟨pre, suf, h⟩ := ih
    cases hd : f.d with
    | left =>
      exact ⟨pre, (f.k :: inorder f.sib) ++ suf, fun X => by
        simp [ctxWrap, wrapF, hd, h]⟩
    | right =>
      exact ⟨pre ++ inorder f.sib ++ [f.k], suf, fun X => by
        simp [ctxWrap, wrapF, hd, h]⟩

theorem inorder_leftRotateT (t : RBT α) : inorder (leftRotateT t) = inorder t := by
  match t with
  | .nil => rfl
  | .node c l k sz .nil => rfl
  | .node c l k sz (.node rc rl rk rsz rr) => simp [leftRotateT]

theorem inorder_rightRotateT (t : RBT α) : inorder (rightRotateT t) = inorder t := by
  match t with
  | .nil => rfl
  | .node c .nil k sz r => rfl
  | .node c (.node lc ll lk lsz lr) k sz r => simp [rightRotateT]

/-! ### Size invariant basics -/

@[simp] theorem sizeOK_nil : sizeOK (.nil : RBT α) := trivial

theorem sizeOK_node {c : Color} {l : RBT α} {k : α} {sz : Nat} {r : RBT α} :
    sizeOK (.node c l k sz r) ↔ sizeOK l ∧ sizeOK r ∧ sz = size l + size r + 1 :=
  Iff.rfl

theorem sizeOK_blackenRoot {t : RBT α} (h : sizeOK t) : sizeOK (blackenRoot t) := by
  cases t with
  | nil => trivial
  | node c l k sz r => exact h

theorem sizeOK_reddenRoot {t : RBT α} (h : sizeOK t) : sizeOK (reddenRoot t) := by
  cases t with
  | nil => trivial
  | node c l k sz r => exact h

theorem size_eq_realSize {t : RBT α} (h : sizeOK t) : size t = realSize t := by
  induction t with
  | nil => rfl
  | node c l k sz r ihl ihr =>
    obtain ⟨hl, hr, hsz⟩ := h
    simp [realSize, hsz, ihl hl, ihr hr]

theorem realSize_eq_length_inorder (t : RBT α) : realSize t = (inorder t).length := by
  induction t with
  | nil => rfl
  | node c l k sz r ihl ihr => simp [realSize, ihl, ihr]; omega

end Gostree

namespace Gostree

set_option linter.unusedSectionVars false

variable {α : Type} [LinearOrder α]

/-! ### Path size bookkeeping -/

theorem pathSz_cons {f : Frame α} {rest : Path α} {m : Nat} :
    PathSz (f :: rest) m ↔ sizeOK f.sib ∧ f.sz = m + size f.sib + 1 ∧ PathSz rest f.sz :=
  Iff.rfl

theorem sizeOK_plugF {f : Frame α} {z : RBT α} (hz : sizeOK z) (hs : sizeOK f.sib)
    (he : f.sz = size z + size f.sib + 1) : sizeOK (plugF f z) := by
  cases hd : f.d <;> simp [plugF, hd, sizeOK_node, hz, hs] <;> omega

@[simp] theorem size_plugF (f : Frame α) (z : RBT α) : size (plugF f z) = f.sz := by
  cases hd : f.d <;> simp [plugF, hd]

theorem fill_sizeOK : (p : Path α) → ∀ z : RBT α, sizeOK z → PathSz p (size z) →
    sizeOK (fill z p)
  | [], z, hz, _ => hz
  | f :: rest, z, hz, hp => by
    obtain ⟨hs, he, hrest⟩ := hp
    have : sizeOK (plugF f z) := sizeOK_plugF hz hs he
    simpa using fill_sizeOK rest (plugF f z) this (by simpa using hrest)

theorem pathSz_sibs : (p : Path α) → ∀ m, PathSz p m → ∀ f ∈ p, sizeOK f.sib
  | [], _, _, f, hf => absurd hf (List.not_mem_nil f)
  | g :: rest, m, hp, f, hf => by
    obtain ⟨hs, _, hrest⟩ := hp
    rcases List.mem_cons.1 hf with h | h
    · exact h ▸ hs
    · exact pathSz_sibs rest _ hrest f h

theorem updSz_pathSz : (p : Path α) → ∀ m, (∀ f ∈ p, sizeOK f.sib) →
    PathSz (updSz p m) m
  | [], _, _ => trivial
  | f :: rest, m, hs => by
    refine ⟨hs f (List.mem_cons_self f rest), rfl, ?_⟩
    exact updSz_pathSz rest _ fun g hg => hs g (List.mem_cons_of_mem f hg)

theorem descend_pathSz : (t : RBT α) → ∀ (key : α) (acc : Path α), sizeOK t →
    PathSz acc (size t + 1) → PathSz (descend t key acc) 1
  | .nil, key, acc, _, hacc => by simpa [descend] using hacc
  | .node c l k sz r, key, acc, ht, hacc => by
    obtain ⟨hl, hr, hsz⟩ := ht
    rw [descend]
    by_cases hk : key < k
    · simp only [if_pos hk]
      refine descend_pathSz l key _ hl ⟨hr, by simp; omega, ?_⟩
      simpa using hacc
    · simp only [if_neg hk]
      refine descend_pathSz r key _ hr ⟨hl, by simp; omega, ?_⟩
      simpa using hacc

/-! ### Rotations and sizes -/

theorem leftRotateT_sizeOK {c rc : Color} {l rl rr : RBT α} {k rk : α} {m m2 : Nat}
    (hl : sizeOK l) (hrl : sizeOK rl) (hrr : sizeOK rr) :
    sizeOK (leftRotateT (.node c l k m (.node rc rl rk m2 rr))) ∧
      size (leftRotateT (.node c l k m (.node rc rl rk m2 rr)))
        = size l + size rl + size rr + 2 := by
  simp [leftRotateT, sizeOK_node, hl, hrl, hrr]
  omega

theorem rightRotateT_sizeOK {c lc : Color} {ll lr r : RBT α} {k lk : α} {m m2 : Nat}
    (hll : sizeOK ll) (hlr : sizeOK lr) (hr : sizeOK r) :
    sizeOK (rightRotateT (.node c (.node lc ll lk m2 lr) k m r)) ∧
      size (rightRotateT (.node c (.node lc ll lk m2 lr) k m r))
        = size ll + size lr + size r + 2 := by
  simp [rightRotateT, sizeOK_node, hll, hlr, hr]
  omega

/-! ### The downward insert walk and its pure-tree form -/

theorem descend_fill (t : RBT α) (key : α) : ∀ acc : Path α,
    fill (.node .red .nil key 1 .nil) (descend t key acc) = fill (insertAt t key) acc := by
  induction t with
  | nil => intro acc; rfl
  | node c l k sz r ihl ihr =>
    intro acc
    rw [descend, insertAt]
    by_cases hk : key < k
    · simp only [if_pos hk, ihl]
      rfl
    · simp only [if_neg hk, ihr]
      rfl

theorem insertAt_perm (t : RBT α) (key : α) :
    (inorder (insertAt t key)).Perm (key :: inorder t) := by
  induction t with
  | nil => simp [insertAt]
  | node c l k sz r ihl ihr =>
    rw [insertAt]
    by_cases hk : key < k
    · simpa [hk] using ihl.append_right (k :: inorder r)
    · simp only [if_neg hk, inorder_node]
      refine (List.Perm.append_left (inorder l) (ihr.cons k)).trans ?_
      refine (List.Perm.append_left (inorder l) (List.Perm.swap key k (inorder r))).trans ?_
      exact List.perm_middle

theorem insertAt_mem {t : RBT α} {key x : α} :
    x ∈ inorder (insertAt t key) ↔ x = key ∨ x ∈ inorder t := by
  rw [(insertAt_perm t key).mem_iff]
  simp

theorem sorted_append_iff {l₁ l₂ : List α} :
    (l₁ ++ l₂).Sorted (· ≤ ·) ↔
      l₁.Sorted (· ≤ ·) ∧ l₂.Sorted (· ≤ ·) ∧ ∀ x ∈ l₁, ∀ y ∈ l₂, x ≤ y :=
  List.pairwise_append

theorem insertAt_sorted {t : RBT α} (key : α) (h : (inorder t).Sorted (· ≤ ·)) :
    (inorder (insertAt t key)).Sorted (· ≤ ·) := by
  induction t with
  | nil => simp [insertAt]
  | node c l k sz r ihl ihr =>
    rw [inorder_node, sorted_append_iff] at h
    obtain ⟨hL, hkR, hcross⟩ := h
    have hk_le_R : ∀ y ∈ inorder r, k ≤ y := fun y hy =>
      (List.sorted_cons.1 hkR).1 y hy
    have hR : (inorder r).Sorted (· ≤ ·) := (List.sorted_cons.1 hkR).2
    rw [insertAt]
    by_cases hk : key < k
    · simp only [if_pos hk, inorder_node, sorted_append_iff]
      refine ⟨ihl hL, hkR, fun x hx y hy => ?_⟩
      rcases insertAt_mem.1 hx with rfl | hx
      · rcases List.mem_cons.1 hy with rfl | hy
        · exact le_of_lt hk
        · exact le_trans (le_of_lt hk) (hk_le_R y hy)
      · exact hcross x hx y hy
    · have hk' : k ≤ key := le_of_not_lt hk
      simp only [if_neg hk, inorder_node, sorted_append_iff]
      refine ⟨hL, ?_, fun x hx y hy => ?_⟩
      · rw [List.sorted_cons]
        refine ⟨fun b hb => ?_, ihr hR⟩
        rcases insertAt_mem.1 hb with rfl | hb
        · exact hk'
        · exact hk_le_R b hb
      · rcases List.mem_cons.1 hy with hyk | hy
        · exact hyk ▸ hcross x hx k (List.mem_cons_self k _)
        · rcases insertAt_mem.1 hy with hyk | hy
          · exact hyk ▸ le_trans (hcross x hx k (List.mem_cons_self k _)) hk'
          · exact hcross x hx y (List.mem_cons_of_mem k hy)

end Gostree

namespace Gostree

set_option linter.unusedSectionVars false

variable {α : Type} [LinearOrder α]

/-! ### insertFixup preserves the in-order listing and the sizes -/

theorem insFix_inorder : (path : Path α) → (z : RBT α) →
    inorder (insFix z path) = ctxWrap path (inorder z)
  | [], _ => rfl
  | [p], z => by simp [insFix, inorder_fill, ctxWrap]
  | p :: g :: rest, z => by
    rw [insFix]
    by_cases hp : p.c = .black
    · simp [hp, inorder_fill, ctxWrap]
    · simp only [if_neg hp]
      by_cases hu : rootColor g.sib = .red
      · rw [if_pos hu, insFix_inorder rest]
        simp only [inorder_plugF, ctxWrap]
        congr 1
        cases hgd : g.d <;> cases hpd : p.d <;> simp [wrapF, hgd, hpd]
      · rw [if_neg hu]
        cases hgd : g.d
        · by_cases hpd : p.d = .right <;>
            simp [hpd, inorder_fill, inorder_rightRotateT, inorder_leftRotateT,
              ctxWrap, wrapF, hgd]
        · by_cases hpd : p.d = .left <;>
            simp [hpd, inorder_fill, inorder_rightRotateT, inorder_leftRotateT,
              ctxWrap, wrapF, hgd]

theorem insFix_sizeOK : (path : Path α) → (z : RBT α) → sizeOK z →
    PathSz path (size z) → sizeOK (insFix z path)
  | [], z, hz, _ => hz
  | [p], z, hz, hp => by
    obtain ⟨hs, he, _⟩ := hp
    simpa [insFix] using sizeOK_plugF hz hs he
  | p :: g :: rest, z, hz, hpath => by
    obtain ⟨hps, hpe, hgs, hge, hrest⟩ :
        sizeOK p.sib ∧ p.sz = size z + size p.sib + 1 ∧
          sizeOK g.sib ∧ g.sz = p.sz + size g.sib + 1 ∧ PathSz rest g.sz := by
      obtain ⟨a, b, c, d, e⟩ := hpath
      exact ⟨a, b, c, d, e⟩
    rw [insFix]
    by_cases hp : p.c = .black
    · simp only [if_pos hp]
      exact fill_sizeOK _ z hz ⟨hps, hpe, hgs, hge, hrest⟩
    · simp only [if_neg hp]
      by_cases hu : rootColor g.sib = .red
      · rw [if_pos hu]
        have h1 : sizeOK (plugF { p with c := Color.black } z) :=
          sizeOK_plugF hz hps hpe
        have h2 : sizeOK (plugF { g with c := Color.red, sib := blackenRoot g.sib }
            (plugF { p with c := Color.black } z)) := by
          refine sizeOK_plugF h1 (sizeOK_blackenRoot hgs) ?_
          simp [hge]
        refine insFix_sizeOK rest _ h2 ?_
        simpa using hrest
      · rw [if_neg hu]
        cases hgd : g.d
        · by_cases hpd : p.d = .right
          · simp only [if_pos hpd]
            cases z with
            | nil =>
              have hS : sizeOK (rightRotateT (.node .red
                    (blackenRoot (leftRotateT (plugF p (.nil : RBT α)))) g.k g.sz g.sib)) ∧
                  size (rightRotateT (.node .red
                    (blackenRoot (leftRotateT (plugF p (.nil : RBT α)))) g.k g.sz g.sib)) = g.sz := by
                simp [plugF, hpd, leftRotateT, rightRotateT, blackenRoot, sizeOK_node,
                  hps, hgs, hz, hpe, hge]
                omega
              exact fill_sizeOK rest _ hS.1 (hS.2.symm ▸ hrest)
            | node zc zl zk zsz zr =>
              obtain ⟨hzl, hzr, hzsz⟩ := hz
              have hS : sizeOK (rightRotateT (.node .red
                    (blackenRoot (leftRotateT (plugF p (.node zc zl zk zsz zr)))) g.k g.sz g.sib)) ∧
                  size (rightRotateT (.node .red
                    (blackenRoot (leftRotateT (plugF p (.node zc zl zk zsz zr)))) g.k g.sz g.sib)) = g.sz := by
                simp [plugF, hpd, leftRotateT, rightRotateT, blackenRoot, sizeOK_node,
                  hps, hgs, hzl, hzr, hpe, hge, hzsz]
                omega
              exact fill_sizeOK rest _ hS.1 (hS.2.symm ▸ hrest)
          · simp only [if_neg hpd]
            have hS : sizeOK (rightRotateT (.node .red
                  (blackenRoot (plugF p z)) g.k g.sz g.sib)) ∧
                size (rightRotateT (.node .red
                  (blackenRoot (plugF p z)) g.k g.sz g.sib)) = g.sz := by
              have hpd' : p.d = .left := by
                cases hx : p.d
                · rfl
                · exact absurd hx hpd
              simp [plugF, hpd', leftRotateT, rightRotateT, blackenRoot, sizeOK_node,
                hps, hgs, hz]
              omega
            exact fill_sizeOK rest _ hS.1 (hS.2.symm ▸ hrest)
        · by_cases hpd : p.d = .left
          · simp only [if_pos hpd]
            cases z with
            | nil =>
              have hS : sizeOK (leftRotateT (.node .red g.sib g.k g.sz
                    (blackenRoot (rightRotateT (plugF p (.nil : RBT α)))))) ∧
                  size (leftRotateT (.node .red g.sib g.k g.sz
                    (blackenRoot (rightRotateT (plugF p (.nil : RBT α)))))) = g.sz := by
                simp [plugF, hpd, leftRotateT, rightRotateT, blackenRoot, sizeOK_node,
                  hps, hgs, hz, hpe, hge]
                omega
              exact fill_sizeOK rest _ hS.1 (hS.2.symm ▸ hrest)
            | node zc zl zk zsz zr =>
              obtain ⟨hzl, hzr, hzsz⟩ := hz
              have hS : sizeOK (leftRotateT (.node .red g.sib g.k g.sz
                    (blackenRoot (rightRotateT (plugF p (.node zc zl zk zsz zr)))))) ∧
                  size (leftRotateT (.node .red g.sib g.k g.sz
                    (blackenRoot (rightRotateT (plugF p (.node zc zl zk zsz zr)))))) = g.sz := by
                simp [plugF, hpd, leftRotateT, rightRotateT, blackenRoot, sizeOK_node,
                  hps, hgs, hzl, hzr, hpe, hge, hzsz]
                omega
              exact fill_sizeOK rest _ hS.1 (hS.2.symm ▸ hrest)
          · simp only [if_neg hpd]
            have hS : sizeOK (leftRotateT (.node .red g.sib g.k g.sz
                  (blackenRoot (plugF p z)))) ∧
                size (leftRotateT (.node .red g.sib g.k g.sz
                  (blackenRoot (plugF p z)))) = g.sz := by
              have hpd' : p.d = .right := by
                cases hx : p.d
                · exact absurd hx hpd
                · rfl
              simp [plugF, hpd', leftRotateT, rightRotateT, blackenRoot, sizeOK_node,
                hps, hgs, hz]
              omega
            exact fill_sizeOK rest _ hS.1 (hS.2.symm ▸ hrest)

/-! ### Insert-level corollaries -/

theorem insertGo_inorder (t : RBT α) (key : α) :
    inorder (insertGo t key) = inorder (insertAt t key) := by
  rw [insertGo, blackenRoot_inorder, insFix_inorder, ← inorder_fill, descend_fill]
  rfl

theorem insertGo_perm (t : RBT α) (key : α) :
    (inorder (insertGo t key)).Perm (key :: inorder t) := by
  rw [insertGo_inorder]
  exact insertAt_perm t key

theorem insertGo_sorted {t : RBT α} (key : α) (h : (inorder t).Sorted (· ≤ ·)) :
    (inorder (insertGo t key)).Sorted (· ≤ ·) := by
  rw [insertGo_inorder]
  exact insertAt_sorted key h

theorem insertGo_sizeOK {t : RBT α} (key : α) (h : sizeOK t) :
    sizeOK (insertGo t key) := by
  refine sizeOK_blackenRoot (insFix_sizeOK _ _ (by simp [sizeOK_node]) ?_)
  have := descend_pathSz t key [] h trivial
  simpa using this

end Gostree


namespace Gostree

set_option linter.unusedSectionVars false

variable {α : Type} [LinearOrder α]

/-! ### deleteFixup Cases 3-4 preserve the in-order listing and sizes -/

theorem delCase34L_inorder (z : RBT α) (pc : Color) (pk : α) (psz : Nat) (s : RBT α)
    (rst : Path α) :
    inorder (delCase34L z pc pk psz s rst) = ctxWrap rst (inorder z ++ pk :: inorder s) := by
  rw [delCase34L.eq_def]
  cases s with
  | nil => simp [inorder_fill]
  | node sc sa sx ssz sb =>
    cases sa with
    | nil => simp [leftRotateT, inorder_fill]
    | node ac a ax asz b =>
      cases ac with
      | red =>
        by_cases hsb : rootColor sb = .black
        · simp [hsb, rightRotateT, leftRotateT, inorder_fill]
        · simp [hsb, leftRotateT, inorder_fill]
      | black => simp [leftRotateT, inorder_fill]

theorem delCase34R_inorder (z : RBT α) (pc : Color) (pk : α) (psz : Nat) (s : RBT α)
    (rst : Path α) :
    inorder (delCase34R z pc pk psz s rst) = ctxWrap rst (inorder s ++ pk :: inorder z) := by
  rw [delCase34R.eq_def]
  cases s with
  | nil => simp [inorder_fill]
  | node sc sa sx ssz sb =>
    cases sb with
    | nil => simp [rightRotateT, inorder_fill]
    | node bc a ax asz b =>
      cases bc with
      | red =>
        by_cases hsa : rootColor sa = .black
        · simp [hsa, rightRotateT, leftRotateT, inorder_fill]
        · simp [hsa, rightRotateT, inorder_fill]
      | black => simp [rightRotateT, inorder_fill]

theorem delC4L_sizeOK {z s4l s4r : RBT α} {pc : Color} {pk s4k : α}
    {psz s4sz : Nat} {rst : Path α}
    (hz : sizeOK z) (h4l : sizeOK s4l) (h4r : sizeOK s4r)
    (hsum : psz = size z + size s4l + size s4r + 2) (hrst : PathSz rst psz) :
    sizeOK (blackenRoot (fill
      (leftRotateT (.node .black z pk psz (.node pc s4l s4k s4sz (blackenRoot s4r))))
      rst)) := by
  have h1 : sizeOK (leftRotateT (.node Color.black z pk psz
      (.node pc s4l s4k s4sz (blackenRoot s4r)))) := by
    simp [leftRotateT, sizeOK_node, hz, h4l, sizeOK_blackenRoot h4r]
  have h2 : size (leftRotateT (.node Color.black z pk psz
      (.node pc s4l s4k s4sz (blackenRoot s4r)))) = psz := by
    simp [leftRotateT, hsum]
    omega
  exact sizeOK_blackenRoot (fill_sizeOK rst _ h1 (h2.symm ▸ hrst))

theorem delC4R_sizeOK {z s4l s4r : RBT α} {pc : Color} {pk s4k : α}
    {psz s4sz : Nat} {rst : Path α}
    (hz : sizeOK z) (h4l : sizeOK s4l) (h4r : sizeOK s4r)
    (hsum : psz = size s4l + size s4r + size z + 2) (hrst : PathSz rst psz) :
    sizeOK (blackenRoot (fill
      (rightRotateT (.node .black (.node pc (blackenRoot s4l) s4k s4sz s4r) pk psz z))
      rst)) := by
  have h1 : sizeOK (rightRotateT (.node Color.black
      (.node pc (blackenRoot s4l) s4k s4sz s4r) pk psz z)) := by
    simp [rightRotateT, sizeOK_node, hz, h4r, sizeOK_blackenRoot h4l]
  have h2 : size (rightRotateT (.node Color.black
      (.node pc (blackenRoot s4l) s4k s4sz s4r) pk psz z)) = psz := by
    simp [rightRotateT, hsum]
    omega
  exact sizeOK_blackenRoot (fill_sizeOK rst _ h1 (h2.symm ▸ hrst))

theorem delCase34L_sizeOK {z : RBT α} {pc : Color} {pk : α} {psz : Nat} {s : RBT α}
    {rst : Path α} (hz : sizeOK z) (hs : sizeOK s) (hpsz : psz = size z + size s + 1)
    (hrst : PathSz rst psz) : sizeOK (delCase34L z pc pk psz s rst) := by
  rw [delCase34L.eq_def]
  cases s with
  | nil =>
    refine sizeOK_blackenRoot (fill_sizeOK rst _ ?_ ?_)
    · simpa [sizeOK_node, hz] using hpsz
    · simpa [hpsz] using hrst
  | node sc sa sx ssz sb =>
    obtain ⟨hsa, hsb, hssz⟩ := hs
    simp only [size_node] at hpsz
    cases sa with
    | nil =>
      exact delC4L_sizeOK hz trivial hsb (by simp at hssz ⊢; omega) hrst
    | node ac a ax asz b =>
      obtain ⟨ha, hb, hasz⟩ := hsa
      cases ac with
      | red =>
        by_cases hsbc : rootColor sb = .black
        · simp only [if_pos hsbc, rightRotateT]
          exact delC4L_sizeOK hz ha ⟨hb, hsb, rfl⟩ (by simp at hssz ⊢; omega) hrst
        · simp only [if_neg hsbc]
          exact delC4L_sizeOK hz ⟨ha, hb, hasz⟩ hsb (by simp at hssz ⊢; omega) hrst
      | black =>
        exact delC4L_sizeOK hz ⟨ha, hb, hasz⟩ hsb (by simp at hssz ⊢; omega) hrst

theorem delCase34R_sizeOK {z : RBT α} {pc : Color} {pk : α} {psz : Nat} {s : RBT α}
    {rst : Path α} (hz : sizeOK z) (hs : sizeOK s) (hpsz : psz = size s + size z + 1)
    (hrst : PathSz rst psz) : sizeOK (delCase34R z pc pk psz s rst) := by
  rw [delCase34R.eq_def]
  cases s with
  | nil =>
    refine sizeOK_blackenRoot (fill_sizeOK rst _ ?_ ?_)
    · simpa [sizeOK_node, hz] using hpsz
    · simpa [hpsz] using hrst
  | node sc sa sx ssz sb =>
    obtain ⟨hsa, hsb, hssz⟩ := hs
    simp only [size_node] at hpsz
    cases sb with
    | nil =>
      exact delC4R_sizeOK hz hsa trivial (by simp at hssz ⊢; omega) hrst
    | node bc a ax asz b =>
      obtain ⟨ha, hb, hasz⟩ := hsb
      cases bc with
      | red =>
        by_cases hsac : rootColor sa = .black
        · simp only [if_pos hsac, leftRotateT]
          exact delC4R_sizeOK hz ⟨hsa, ha, rfl⟩ hb (by simp at hssz ⊢; omega) hrst
        · simp only [if_neg hsac]
          exact delC4R_sizeOK hz hsa ⟨ha, hb, hasz⟩ (by simp at hssz ⊢; omega) hrst
      | black =>
        exact delC4R_sizeOK hz hsa ⟨ha, hb, hasz⟩ (by simp at hssz ⊢; omega) hrst

end Gostree

namespace Gostree

set_option linter.unusedSectionVars false

variable {α : Type} [LinearOrder α]

/-! ### deleteFixup preserves the in-order listing and the sizes -/

theorem delFix_inorder : (path : Path α) → (z : RBT α) →
    inorder (delFix z path) = ctxWrap path (inorder z)
  | [], z => by simp [delFix, ctxWrap]
  | p :: rest, z => by
    obtain ⟨pd, pcc, pk, psz, psib⟩ := p
    rw [delFix]
    by_cases hz : rootColor z = .red
    · rw [if_pos hz]
      cases pd <;> simp [inorder_fill, ctxWrap, wrapF]
    · rw [if_neg hz]
      cases pd with
      | left =>
        cases psib with
        | nil =>
          dsimp only
          rw [if_pos ⟨rfl, rfl⟩]
          by_cases hex : pcc = Color.red ∨ rest = []
          · rw [if_pos hex]
            simp [inorder_fill, ctxWrap, wrapF, plugF]
          · rw [if_neg hex, delFix_inorder rest]
            simp [ctxWrap, wrapF, plugF]
        | node sc sl sk ssz sr =>
          cases sc with
          | red =>
            dsimp only
            by_cases h2 : rootColor (leftT sl) = .black ∧ rootColor (rightT sl) = .black
            · rw [if_pos h2]
              simp [inorder_fill, ctxWrap, wrapF]
            · rw [if_neg h2, delCase34L_inorder]
              simp [ctxWrap, wrapF]
          | black =>
            dsimp only
            by_cases h2 : rootColor (leftT (.node Color.black sl sk ssz sr)) = .black ∧
                rootColor (rightT (.node Color.black sl sk ssz sr)) = .black
            · rw [if_pos h2]
              by_cases hex : pcc = Color.red ∨ rest = []
              · rw [if_pos hex]
                simp [inorder_fill, ctxWrap, wrapF, plugF, reddenRoot]
              · rw [if_neg hex, delFix_inorder rest]
                simp [ctxWrap, wrapF, plugF, reddenRoot]
            · rw [if_neg h2, delCase34L_inorder]
              simp [ctxWrap, wrapF]
      | right =>
        cases psib with
        | nil =>
          dsimp only
          rw [if_pos ⟨rfl, rfl⟩]
          by_cases hex : pcc = Color.red ∨ rest = []
          · rw [if_pos hex]
            simp [inorder_fill, ctxWrap, wrapF, plugF]
          · rw [if_neg hex, delFix_inorder rest]
            simp [ctxWrap, wrapF, plugF]
        | node sc sl sk ssz sr =>
          cases sc with
          | red =>
            dsimp only
            by_cases h2 : rootColor (rightT sr) = .black ∧ rootColor (leftT sr) = .black
            · rw [if_pos h2]
              simp [inorder_fill, ctxWrap, wrapF]
            · rw [if_neg h2, delCase34R_inorder]
              simp [ctxWrap, wrapF]
          | black =>
            dsimp only
            by_cases h2 : rootColor (rightT (.node Color.black sl sk ssz sr)) = .black ∧
                rootColor (leftT (.node Color.black sl sk ssz sr)) = .black
            · rw [if_pos h2]
              by_cases hex : pcc = Color.red ∨ rest = []
              · rw [if_pos hex]
                simp [inorder_fill, ctxWrap, wrapF, plugF, reddenRoot]
              · rw [if_neg hex, delFix_inorder rest]
                simp [ctxWrap, wrapF, plugF, reddenRoot]
            · rw [if_neg h2, delCase34R_inorder]
              simp [ctxWrap, wrapF]

end Gostree

namespace Gostree

set_option linter.unusedSectionVars false

variable {α : Type} [LinearOrder α]

theorem delFix_sizeOK : (path : Path α) → (z : RBT α) → sizeOK z →
    PathSz path (size z) → sizeOK (delFix z path)
  | [], z, hz, _ => sizeOK_blackenRoot hz
  | p :: rest, z, hz, hpath => by
    obtain ⟨pd, pcc, pk, psz, psib⟩ := p
    obtain ⟨hs, he, hrest⟩ := hpath
    simp only at hs he hrest
    rw [delFix]
    by_cases hzc : rootColor z = .red
    · rw [if_pos hzc]
      refine fill_sizeOK _ _ (sizeOK_blackenRoot hz) ?_
      exact ⟨hs, by simpa using he, by simpa using hrest⟩
    · rw [if_neg hzc]
      cases pd with
      | left =>
        cases psib with
        | nil =>
          dsimp only
          rw [if_pos ⟨rfl, rfl⟩]
          have hplug : sizeOK (plugF ⟨Dir.left, pcc, pk, psz, reddenRoot .nil⟩ z) :=
            sizeOK_plugF hz trivial (by simpa using he)
          by_cases hex : pcc = Color.red ∨ rest = []
          · rw [if_pos hex]
            refine fill_sizeOK _ _ (sizeOK_blackenRoot hplug) ?_
            simpa using hrest
          · rw [if_neg hex]
            refine delFix_sizeOK rest _ hplug ?_
            simpa using hrest
        | node sc sl sk ssz sr =>
          obtain ⟨hsl, hsr, hssz⟩ := hs
          simp only [size_node] at he
          cases sc with
          | red =>
            dsimp only
            have hq : size z + size sl + 1 + size sr + 1 = psz := by omega
            by_cases h2 : rootColor (leftT sl) = .black ∧ rootColor (rightT sl) = .black
            · rw [if_pos h2]
              refine fill_sizeOK _ _ ?_ ?_
              · exact sizeOK_blackenRoot ⟨hz, sizeOK_reddenRoot hsl, by simp⟩
              · refine ⟨hsr, by simp, ?_⟩
                simpa [hq] using hrest
            · rw [if_neg h2]
              refine delCase34L_sizeOK hz hsl rfl ?_
              refine ⟨hsr, rfl, ?_⟩
              simpa [hq] using hrest
          | black =>
            dsimp only
            by_cases h2 : rootColor (leftT (.node Color.black sl sk ssz sr)) = .black ∧
                rootColor (rightT (.node Color.black sl sk ssz sr)) = .black
            · rw [if_pos h2]
              have hplug : sizeOK (plugF
                  ⟨Dir.left, pcc, pk, psz, reddenRoot (.node Color.black sl sk ssz sr)⟩ z) :=
                sizeOK_plugF hz
                  (sizeOK_reddenRoot (show sizeOK (RBT.node Color.black sl sk ssz sr) from ⟨hsl, hsr, hssz⟩))
                  (by simpa using he)
              by_cases hex : pcc = Color.red ∨ rest = []
              · rw [if_pos hex]
                refine fill_sizeOK _ _ (sizeOK_blackenRoot hplug) ?_
                simpa using hrest
              · rw [if_neg hex]
                refine delFix_sizeOK rest _ hplug ?_
                simpa using hrest
            · rw [if_neg h2]
              exact delCase34L_sizeOK hz ⟨hsl, hsr, hssz⟩ (by simpa using he)
                (by simpa using hrest)
      | right =>
        cases psib with
        | nil =>
          dsimp only
          rw [if_pos ⟨rfl, rfl⟩]
          have hplug : sizeOK (plugF ⟨Dir.right, pcc, pk, psz, reddenRoot .nil⟩ z) :=
            sizeOK_plugF hz trivial (by simpa using he)
          by_cases hex : pcc = Color.red ∨ rest = []
          · rw [if_pos hex]
            refine fill_sizeOK _ _ (sizeOK_blackenRoot hplug) ?_
            simpa using hrest
          · rw [if_neg hex]
            refine delFix_sizeOK rest _ hplug ?_
            simpa using hrest
        | node sc sl sk ssz sr =>
          obtain ⟨hsl, hsr, hssz⟩ := hs
          simp only [size_node] at he
          cases sc with
          | red =>
            dsimp only
            have hq : size sl + (size sr + size z + 1) + 1 = psz := by omega
            by_cases h2 : rootColor (rightT sr) = .black ∧ rootColor (leftT sr) = .black
            · rw [if_pos h2]
              refine fill_sizeOK _ _ ?_ ?_
              · exact sizeOK_blackenRoot ⟨sizeOK_reddenRoot hsr, hz, by simp⟩
              · refine ⟨hsl, by simp only [size_blackenRoot, size_node]; omega, ?_⟩
                simpa [hq] using hrest
            · rw [if_neg h2]
              refine delCase34R_sizeOK hz hsr rfl ?_
              refine ⟨hsl, by dsimp only; omega, ?_⟩
              simpa [hq] using hrest
          | black =>
            dsimp only
            by_cases h2 : rootColor (rightT (.node Color.black sl sk ssz sr)) = .black ∧
                rootColor (leftT (.node Color.black sl sk ssz sr)) = .black
            · rw [if_pos h2]
              have hplug : sizeOK (plugF
                  ⟨Dir.right, pcc, pk, psz, reddenRoot (.node Color.black sl sk ssz sr)⟩ z) :=
                sizeOK_plugF hz
                  (sizeOK_reddenRoot (show sizeOK (RBT.node Color.black sl sk ssz sr) from ⟨hsl, hsr, hssz⟩))
                  (by simpa using he)
              by_cases hex : pcc = Color.red ∨ rest = []
              · rw [if_pos hex]
                refine fill_sizeOK _ _ (sizeOK_blackenRoot hplug) ?_
                simpa using hrest
              · rw [if_neg hex]
                refine delFix_sizeOK rest _ hplug ?_
                simpa using hrest
            · rw [if_neg h2]
              exact delCase34R_sizeOK hz ⟨hsl, hsr, hssz⟩ (by simp only [size_node]; omega)
                (by simpa using hrest)

end Gostree

namespace Gostree

set_option linter.unusedSectionVars false

variable {α : Type} [LinearOrder α]

/-! ### Path algebra for the delete splice -/

theorem ctxWrap_append (p q : Path α) : ∀ X : List α,
    ctxWrap (p ++ q) X = ctxWrap q (ctxWrap p X) := by
  induction p with
  | nil => intro X; rfl
  | cons f rest ih => intro X; simp [ctxWrap, ih]

theorem wrapF_sz (f : Frame α) (m : Nat) (X : List α) :
    wrapF { f with sz := m } X = wrapF f X := by
  cases hd : f.d <;> simp [wrapF, hd]

theorem ctxWrap_updSz : (p : Path α) → ∀ (m : Nat) (X : List α),
    ctxWrap (updSz p m) X = ctxWrap p X
  | [], _, _ => rfl
  | f :: rest, m, X => by
    simp [updSz, ctxWrap, ctxWrap_updSz rest, wrapF_sz]

theorem ctxWrap_allLeft : (p : Path α) → (∀ fr ∈ p, fr.d = .left) →
    ∃ suf : List α, ∀ X : List α, ctxWrap p X = X ++ suf
  | [], _ => ⟨[], fun X => by simp [ctxWrap]⟩
  | f :: rest, h => by
    obtain ⟨suf, hsuf⟩ := ctxWrap_allLeft rest fun fr hfr => h fr (List.mem_cons_of_mem f hfr)
    refine ⟨(f.k :: inorder f.sib) ++ suf, fun X => ?_⟩
    simp [ctxWrap, wrapF, h f (List.mem_cons_self f rest), hsuf]

/-! ### The search and minimum walks as zippers -/

theorem searchZ_some : (t : RBT α) → (acc : Path α) → ∀ {fz : RBT α} {p : Path α},
    searchZ t key acc = some (fz, p) →
    fill fz p = fill t acc ∧ ∃ c l sz r, fz = .node c l key sz r
  | .nil, acc, fz, p, h => by simp [searchZ] at h
  | .node c l k sz r, acc, fz, p, h => by
    rw [searchZ] at h
    by_cases h1 : key < k
    · rw [if_pos h1] at h
      obtain ⟨hfill, hshape⟩ := searchZ_some l _ h
      exact ⟨hfill, hshape⟩
    · rw [if_neg h1] at h
      by_cases h2 : k < key
      · rw [if_pos h2] at h
        obtain ⟨hfill, hshape⟩ := searchZ_some r _ h
        exact ⟨hfill, hshape⟩
      · rw [if_neg h2] at h
        obtain ⟨rfl, rfl⟩ : fz = RBT.node c l k sz r ∧ p = acc := by
          cases h; exact ⟨rfl, rfl⟩
        have : k = key := le_antisymm (le_of_not_lt h1) (le_of_not_lt h2)
        exact ⟨rfl, c, l, sz, r, by rw [this]⟩

theorem searchZ_sizeOK : (t : RBT α) → (acc : Path α) → ∀ {fz : RBT α} {p : Path α},
    sizeOK t → (∀ f ∈ acc, sizeOK f.sib) → searchZ t key acc = some (fz, p) →
    sizeOK fz ∧ ∀ f ∈ p, sizeOK f.sib
  | .nil, acc, fz, p, _, _, h => by simp [searchZ] at h
  | .node c l k sz r, acc, fz, p, ht, hacc, h => by
    have hl : sizeOK l := ht.1
    have hr : sizeOK r := ht.2.1
    rw [searchZ] at h
    by_cases h1 : key < k
    · rw [if_pos h1] at h
      refine searchZ_sizeOK l _ hl ?_ h
      intro f hf
      rcases List.mem_cons.1 hf with hfe | hf
      · rw [hfe]; exact hr
      · exact hacc f hf
    · rw [if_neg h1] at h
      by_cases h2 : k < key
      · rw [if_pos h2] at h
        refine searchZ_sizeOK r _ hr ?_ h
        intro f hf
        rcases List.mem_cons.1 hf with hfe | hf
        · rw [hfe]; exact hl
        · exact hacc f hf
      · rw [if_neg h2] at h
        obtain ⟨rfl, rfl⟩ : fz = RBT.node c l k sz r ∧ p = acc := by
          cases h; exact ⟨rfl, rfl⟩
        exact ⟨ht, hacc⟩

theorem searchZ_isSome_iff {key : α} : (t : RBT α) → (acc : Path α) →
    (inorder t).Sorted (· ≤ ·) →
    ((searchZ t key acc).isSome ↔ key ∈ inorder t)
  | .nil, acc, _ => by simp [searchZ]
  | .node c l k sz r, acc, hsort => by
    rw [inorder_node, sorted_append_iff] at hsort
    obtain ⟨hL, hkR, hcross⟩ := hsort
    obtain ⟨hk_le, hR⟩ := List.sorted_cons.1 hkR
    rw [searchZ]
    by_cases h1 : key < k
    · rw [if_pos h1]
      rw [searchZ_isSome_iff l _ hL]
      simp only [inorder_node, List.mem_append, List.mem_cons]
      constructor
      · exact fun h => Or.inl h
      · rintro (h | h | h)
        · exact h
        · exact absurd h1 (by rw [h]; exact lt_irrefl k)
        · exact absurd h1 (not_lt_of_le (le_trans (hk_le key h) (le_refl key)))
    · rw [if_neg h1]
      by_cases h2 : k < key
      · rw [if_pos h2]
        rw [searchZ_isSome_iff r _ hR]
        simp only [inorder_node, List.mem_append, List.mem_cons]
        constructor
        · exact fun h => Or.inr (Or.inr h)
        · rintro (h | h | h)
          · exact absurd h2 (not_lt_of_le (hcross key h k (List.mem_cons_self k _)))
          · exact absurd h2 (by rw [h]; exact lt_irrefl k)
          · exact h
      · rw [if_neg h2]
        have : k = key := le_antisymm (le_of_not_lt h1) (le_of_not_lt h2)
        simp [this]

theorem minZ_spec : (t : RBT α) → (acc : Path α) →
    fill (minZ t acc).1 (minZ t acc).2 = fill t acc ∧
      (∃ pre, (minZ t acc).2 = pre ++ acc ∧ ∀ fr ∈ pre, fr.d = .left) ∧
      (t ≠ .nil → ∃ c k sz r, (minZ t acc).1 = .node c .nil k sz r)
  | .nil, acc => ⟨rfl, ⟨[], rfl, by simp⟩, fun h => absurd rfl h⟩
  | .node c .nil k sz r, acc =>
    ⟨rfl, ⟨[], rfl, by simp⟩, fun _ => ⟨c, k, sz, r, rfl⟩⟩
  | .node c (.node lc ll lk lsz lr) k sz r, acc => by
    obtain ⟨hfill, ⟨pre, hpre, hdirs⟩, hshape⟩ :=
      minZ_spec (.node lc ll lk lsz lr)
        ({ d := .left, c := c, k := k, sz := sz, sib := r } :: acc)
    refine ⟨?_, ⟨pre ++ [{ d := .left, c := c, k := k, sz := sz, sib := r }], ?_, ?_⟩, ?_⟩
    · rw [minZ, hfill]
      rfl
    · rw [minZ, hpre]
      simp
    · intro fr hfr
      rcases List.mem_append.1 hfr with h | h
      · exact hdirs fr h
      · rw [List.mem_singleton.1 h]
    · intro _
      rw [minZ]
      exact hshape (by simp)

theorem minZ_sizeOK : (t : RBT α) → (acc : Path α) → sizeOK t →
    (∀ f ∈ acc, sizeOK f.sib) →
    sizeOK (minZ t acc).1 ∧ ∀ f ∈ (minZ t acc).2, sizeOK f.sib
  | .nil, acc, ht, hacc => ⟨trivial, hacc⟩
  | .node c .nil k sz r, acc, ht, hacc => ⟨ht, hacc⟩
  | .node c (.node lc ll lk lsz lr) k sz r, acc, ht, hacc => by
    obtain ⟨hl, hr, _⟩ := ht
    rw [minZ]
    refine minZ_sizeOK _ _ hl ?_
    intro f hf
    rcases List.mem_cons.1 hf with hfe | hf
    · rw [hfe]; exact hr
    · exact hacc f hf

end Gostree

namespace Gostree

set_option linter.unusedSectionVars false

variable {α : Type} [LinearOrder α]

theorem sorted_drop_mid {X Y : List α} {k : α} (h : (X ++ k :: Y).Sorted (· ≤ ·)) :
    (X ++ Y).Sorted (· ≤ ·) := by
  rw [sorted_append_iff] at h ⊢
  obtain ⟨hX, hkY, hcross⟩ := h
  exact ⟨hX, (List.sorted_cons.1 hkY).2,
    fun x hx y hy => hcross x hx y (List.mem_cons_of_mem k hy)⟩

/-! ### deleteNode: sizes and the in-order effect -/

theorem deleteNodeGo_sizeOK {c : Color} {l r : RBT α} {k : α} {sz : Nat} {path : Path α}
    (hl : sizeOK l) (hr : sizeOK r) (hsibs : ∀ f ∈ path, sizeOK f.sib) :
    sizeOK (deleteNodeGo (.node c l k sz r) path).1 := by
  rw [deleteNodeGo.eq_def]
  cases l with
  | nil =>
    have hps : PathSz (updSz path (size r)) (size r) := updSz_pathSz path _ hsibs
    by_cases hc : c = Color.black
    · simp only [hc, if_pos]
      exact delFix_sizeOK _ _ hr hps
    · simp only [if_neg hc]
      exact fill_sizeOK _ _ hr hps
  | node lc ll lk lsz lr =>
    cases r with
    | nil =>
      have hps : PathSz (updSz path (size (RBT.node lc ll lk lsz lr)))
          (size (RBT.node lc ll lk lsz lr)) := updSz_pathSz path _ hsibs
      by_cases hc : c = Color.black
      · simp only [hc, if_pos]
        exact delFix_sizeOK _ _ hl hps
      · simp only [if_neg hc]
        exact fill_sizeOK _ _ hl hps
    | node rc rl rk rsz rr =>
      dsimp only
      rcases hmin : minZ (RBT.node rc rl rk rsz rr) [] with ⟨S, sucP⟩
      obtain ⟨hSOK, hsibsS⟩ := by
        have := minZ_sizeOK (RBT.node rc rl rk rsz rr) [] hr (by simp)
        rwa [hmin] at this
      obtain ⟨_, _, hshape⟩ := minZ_spec (RBT.node rc rl rk rsz rr) []
      rw [hmin] at hshape
      obtain ⟨c2, k2, sz2, r2, hS⟩ := hshape (by simp)
      subst hS
      dsimp only
      have hSr : sizeOK r2 := hSOK.2.1
      have hps : PathSz (updSz (sucP ++
          ({ d := Dir.right, c := c, k := k2, sz := sz2,
             sib := RBT.node lc ll lk lsz lr } : Frame α) :: path) (size r2)) (size r2) := by
        refine updSz_pathSz _ _ ?_
        intro f hf
        rcases List.mem_append.1 hf with h | h
        · exact hsibsS f h
        · rcases List.mem_cons.1 h with hfe | h
          · rw [hfe]; exact hl
          · exact hsibs f h
      by_cases hc : c2 = Color.black
      · simp only [hc, if_pos]
        exact delFix_sizeOK _ _ hSr hps
      · simp only [if_neg hc]
        exact fill_sizeOK _ _ hSr hps

theorem deleteNodeGo_inorder {c : Color} {l r : RBT α} {k : α} {sz : Nat} (path : Path α) :
    ∃ X Y : List α, inorder (fill (.node c l k sz r) path) = X ++ k :: Y ∧
      inorder (deleteNodeGo (.node c l k sz r) path).1 = X ++ Y := by
  obtain ⟨pre, suf, hP⟩ := ctxWrap_shape path
  rw [deleteNodeGo.eq_def]
  cases l with
  | nil =>
    refine ⟨pre, inorder r ++ suf, by simp [inorder_fill, hP], ?_⟩
    by_cases hc : c = Color.black
    · simp only [hc, if_pos]
      simp [delFix_inorder, ctxWrap_updSz, hP]
    · simp only [if_neg hc]
      simp [inorder_fill, ctxWrap_updSz, hP]
  | node lc ll lk lsz lr =>
    cases r with
    | nil =>
      refine ⟨pre ++ inorder (RBT.node lc ll lk lsz lr), suf,
        by simp [inorder_fill, hP], ?_⟩
      by_cases hc : c = Color.black
      · simp only [hc, if_pos]
        simp [delFix_inorder, ctxWrap_updSz, hP]
      · simp only [if_neg hc]
        simp [inorder_fill, ctxWrap_updSz, hP]
    | node rc rl rk rsz rr =>
      dsimp only
      rcases hmin : minZ (RBT.node rc rl rk rsz rr) [] with ⟨S, sucP⟩
      obtain ⟨hfill, ⟨preL, hpre, hdirs⟩, hshape⟩ := minZ_spec (RBT.node rc rl rk rsz rr) []
      rw [hmin] at hfill hpre hshape
      obtain ⟨c2, k2, sz2, r2, hS⟩ := hshape (by simp)
      subst hS
      dsimp only at hfill hpre ⊢
      rw [List.append_nil] at hpre
      subst hpre
      obtain ⟨T, hT⟩ := ctxWrap_allLeft sucP hdirs
      have hfill' : fill (RBT.node c2 RBT.nil k2 sz2 r2) sucP =
          RBT.node rc rl rk rsz rr := hfill
      have hrnode : inorder (RBT.node rc rl rk rsz rr) = k2 :: (inorder r2 ++ T) := by
        rw [← hfill', inorder_fill, hT]
        simp
      refine ⟨pre ++ inorder (RBT.node lc ll lk lsz lr),
        (k2 :: (inorder r2 ++ T)) ++ suf, by simp [inorder_fill, hP, hrnode], ?_⟩
      by_cases hc : c2 = Color.black
      · simp only [hc, if_pos]
        simp [delFix_inorder, ctxWrap_updSz, ctxWrap_append, hT, ctxWrap, wrapF, hP]
      · simp only [if_neg hc]
        simp [inorder_fill, ctxWrap_updSz, ctxWrap_append, hT, ctxWrap, wrapF, hP]

end Gostree

namespace Gostree

set_option linter.unusedSectionVars false

variable {α : Type} [LinearOrder α]

/-! ### Delete: top-level list facts -/

theorem deleteGo_none {t : RBT α} {key : α} (h : searchZ t key [] = none) :
    deleteGo t key = (false, t, none) := by
  simp [deleteGo, h]

theorem deleteGo_flag_iff {t : RBT α} {key : α} (hsort : (inorder t).Sorted (· ≤ ·)) :
    (deleteGo t key).1 = true ↔ key ∈ inorder t := by
  rw [← searchZ_isSome_iff t [] hsort]
  rw [deleteGo]
  cases h : searchZ t key [] with
  | none => simp [h]
  | some v =>
    rcases v with ⟨f, p⟩
    simp [h]

theorem deleteGo_found_inorder {t : RBT α} {key : α} {f : RBT α} {p : Path α}
    (h : searchZ t key [] = some (f, p)) :
    ∃ X Y : List α, inorder t = X ++ key :: Y ∧
      inorder (deleteGo t key).2.1 = X ++ Y := by
  obtain ⟨hfill, c, l, sz, r, hshape⟩ := searchZ_some t [] h
  subst hshape
  have hDNI : ∃ X Y : List α, inorder (fill (.node c l key sz r) p) = X ++ key :: Y ∧
      inorder (deleteNodeGo (.node c l key sz r) p).1 = X ++ Y := deleteNodeGo_inorder p
  obtain ⟨X, Y, h1, h2⟩ := hDNI
  rw [hfill] at h1
  refine ⟨X, Y, h1, ?_⟩
  rw [deleteGo, h]
  exact h2

theorem deleteGo_some {t : RBT α} {key : α} {f : RBT α} {p : Path α}
    (h : searchZ t key [] = some (f, p)) :
    (deleteGo t key).1 = true ∧ (deleteGo t key).2.1 = (deleteNodeGo f p).1 := by
  rw [deleteGo, h]
  exact ⟨rfl, rfl⟩

theorem deleteGo_sizeOK {t : RBT α} (key : α) (ht : sizeOK t) :
    sizeOK (deleteGo t key).2.1 := by
  cases h : searchZ t key [] with
  | none => rw [deleteGo_none h]; exact ht
  | some v =>
    rcases v with ⟨f, p⟩
    rw [(deleteGo_some h).2]
    obtain ⟨hf, hsibs⟩ := searchZ_sizeOK t [] ht (by simp) h
    obtain ⟨hfill, c, l, sz, r, hshape⟩ := searchZ_some t [] h
    subst hshape
    exact deleteNodeGo_sizeOK hf.1 hf.2.1 hsibs

theorem deleteGo_sorted {t : RBT α} (key : α) (hsort : (inorder t).Sorted (· ≤ ·)) :
    (inorder (deleteGo t key).2.1).Sorted (· ≤ ·) := by
  cases h : searchZ t key [] with
  | none => rw [deleteGo_none h]; exact hsort
  | some v =>
    rcases v with ⟨f, p⟩
    obtain ⟨X, Y, h1, h2⟩ := deleteGo_found_inorder h
    rw [h2]
    rw [h1] at hsort
    exact sorted_drop_mid hsort

theorem deleteGo_count {t : RBT α} {key : α} (hsort : (inorder t).Sorted (· ≤ ·))
    (hmem : key ∈ inorder t) :
    List.count key (inorder (deleteGo t key).2.1) + 1 = List.count key (inorder t) ∧
      (∀ x : α, x ≠ key →
        List.count x (inorder (deleteGo t key).2.1) = List.count x (inorder t)) ∧
      (inorder (deleteGo t key).2.1).length + 1 = (inorder t).length := by
  have hfound : (deleteGo t key).1 = true := (deleteGo_flag_iff hsort).2 hmem
  rw [deleteGo] at hfound
  cases h : searchZ t key [] with
  | none => rw [h] at hfound; simp at hfound
  | some v =>
    rcases v with ⟨f, p⟩
    obtain ⟨X, Y, h1, h2⟩ := deleteGo_found_inorder h
    rw [h1, h2]
    refine ⟨?_, fun x hx => ?_, ?_⟩
    · simp [List.count_append]
      omega
    · simp [List.count_append, List.count_cons, hx.symm]
    · simp
      omega

end Gostree

namespace Gostree

set_option linter.unusedSectionVars false

variable {α : Type} [LinearOrder α]

/-! ### Balance: basic inversions and path color algebra -/

theorem bal_rootColor {t : RBT α} {c : Color} {n : Nat} (h : Bal t c n) :
    rootColor t = c := by
  cases h <;> rfl

theorem bal_nil_inv {c : Color} {n : Nat} (h : Bal (.nil : RBT α) c n) :
    c = .black ∧ n = 0 := by
  cases h; exact ⟨rfl, rfl⟩

theorem bal_blacken_any {t : RBT α} {c : Color} {n : Nat} (h : Bal t c n) :
    ∃ n', Bal (blackenRoot t) .black n' := by
  cases h with
  | nil => exact ⟨0, Bal.nil⟩
  | red hl hr => exact ⟨_, Bal.black hl hr⟩
  | black hl hr => exact ⟨_, Bal.black hl hr⟩

theorem bal_black_pos_node {t : RBT α} {n : Nat} (h : Bal t .black (n + 1)) :
    ∃ l k sz r cl cr, t = .node .black l k sz r ∧ Bal l cl n ∧ Bal r cr n := by
  cases h with
  | black hl hr => exact ⟨_, _, _, _, _, _, rfl, hl, hr⟩

theorem bal_red_node {t : RBT α} {n : Nat} (h : Bal t .red n) :
    ∃ l k sz r, t = .node .red l k sz r ∧ Bal l .black n ∧ Bal r .black n := by
  cases h with
  | red hl hr => exact ⟨_, _, _, _, rfl, hl, hr⟩

theorem lastColorD_cons (f : Frame α) (rest : Path α) (c : Color) :
    lastColorD (f :: rest) c = lastColorD rest f.c := rfl

theorem lastColorD_const : (p : Path α) → p ≠ [] → ∀ a b : Color,
    lastColorD p a = lastColorD p b
  | [], h, _, _ => absurd rfl h
  | _ :: _, _, _, _ => rfl

theorem lastColorD_append : (p q : Path α) → ∀ a : Color,
    lastColorD (p ++ q) a = lastColorD q (lastColorD p a)
  | [], q, a => rfl
  | f :: rest, q, a => by
    rw [List.cons_append, lastColorD_cons, lastColorD_cons]
    exact lastColorD_append rest q f.c

theorem rootOk_cons {f : Frame α} {rest : Path α} :
    rootOk (f :: rest) ↔ lastColorD rest f.c = .black := Iff.rfl

theorem rootOk_tail {f : Frame α} {rest : Path α} (h : rootOk (f :: rest))
    (hne : rest ≠ []) : rootOk rest := by
  rcases rest with _ | ⟨g, rest'⟩
  · exact absurd rfl hne
  · exact h

theorem rootColor_plugF (f : Frame α) (z : RBT α) : rootColor (plugF f z) = f.c := by
  cases hd : f.d <;> simp [plugF, hd]

theorem fill_rootColor : (p : Path α) → ∀ z : RBT α,
    rootColor (fill z p) = lastColorD p (rootColor z)
  | [], z => rfl
  | f :: rest, z => by
    rw [fill_cons, lastColorD_cons, fill_rootColor rest, rootColor_plugF]

/-! ### updateSizeUpward leaves colors, directions and siblings unchanged -/

theorem headColor_updSz (p : Path α) (m : Nat) : headColor (updSz p m) = headColor p := by
  cases p <;> rfl

theorem lastColorD_updSz : (p : Path α) → ∀ (m : Nat) (a : Color),
    lastColorD (updSz p m) a = lastColorD p a
  | [], _, _ => rfl
  | f :: rest, m, a => by
    rw [updSz, lastColorD_cons, lastColorD_cons]
    exact lastColorD_updSz rest _ _

theorem ctxOk_updSz : (p : Path α) → ∀ (m n : Nat), CtxOk (updSz p m) n ↔ CtxOk p n
  | [], _, _ => Iff.rfl
  | ⟨fd, fc, fk, fsz, fsib⟩ :: rest, m, n => by
    cases fc <;>
      simp [updSz, CtxOk, headColor_updSz, ctxOk_updSz rest]

theorem rootOk_updSz {p : Path α} {m : Nat} (h : rootOk p) : rootOk (updSz p m) := by
  cases p with
  | nil => trivial
  | cons f rest =>
    rw [updSz]
    rw [rootOk_cons] at h ⊢
    show lastColorD (updSz rest _) f.c = Color.black
    rw [lastColorD_updSz]
    exact h

/-! ### Filling a balanced context -/

theorem fill_bal : (path : Path α) → ∀ (n : Nat) (z : RBT α) (c : Color),
    CtxOk path n → Bal z c n → (c = .red → headColor path = .black) →
    ∃ n', Bal (fill z path) (lastColorD path c) n'
  | [], n, z, c, _, hz, _ => ⟨n, hz⟩
  | f :: rest, n, z, c, hctx, hz, hhead => by
    rw [fill_cons, lastColorD_cons]
    rcases hfc : f.c with _ | _
    · -- RED frame: the focus must be BLACK and the sibling is BLACK
      rw [CtxOk, hfc] at hctx
      obtain ⟨hsib, hrhead, hrest⟩ := hctx
      have hcblack : c = .black := by
        cases hcc : c with
        | red => exact absurd (hhead hcc) (by simp [headColor, hfc])
        | black => rfl
      subst hcblack
      have hplug : Bal (plugF f z) .red n := by
        cases hd : f.d <;> simp [plugF, hd, hfc] <;>
          [exact Bal.red hz hsib; exact Bal.red hsib hz]
      exact fill_bal rest n _ .red hrest hplug (fun _ => hrhead)
    · rw [CtxOk, hfc] at hctx
      obtain ⟨⟨cs, hsib⟩, hrest⟩ := hctx
      have hplug : Bal (plugF f z) .black (n + 1) := by
        cases hd : f.d <;> simp [plugF, hd, hfc] <;>
          [exact Bal.black hz hsib; exact Bal.black hsib hz]
      exact fill_bal rest (n + 1) _ .black hrest hplug (by simp)

end Gostree

namespace Gostree

set_option linter.unusedSectionVars false

variable {α : Type} [LinearOrder α]

/-! ### The insert descent produces a balanced context -/

theorem descend_ctx : (t : RBT α) → ∀ (acc : Path α) (n : Nat) (ct : Color) (key : α),
    Bal t ct n → CtxOk acc n → (ct = .red → headColor acc = .black) →
    CtxOk (descend t key acc) 0
  | .nil, acc, n, ct, key, hbal, hacc, _ => by
    obtain ⟨_, rfl⟩ := bal_nil_inv hbal
    simpa [descend] using hacc
  | .node c l k sz r, acc, n, ct, key, hbal, hacc, hhead => by
    rw [descend]
    cases hbal with
    | red hl hr =>
      by_cases hk : key < k
      · rw [if_pos hk]
        refine descend_ctx l _ _ _ _ hl ?_ (by simp)
        rw [CtxOk]
        exact ⟨hr, hhead rfl, hacc⟩
      · rw [if_neg hk]
        refine descend_ctx r _ _ _ _ hr ?_ (by simp)
        rw [CtxOk]
        exact ⟨hl, hhead rfl, hacc⟩
    | @black _ _ _ _ m cl cr hl hr =>
      by_cases hk : key < k
      · rw [if_pos hk]
        refine descend_ctx l _ _ _ _ hl ?_ (by intro _; rfl)
        rw [CtxOk]
        exact ⟨⟨cr, hr⟩, hacc⟩
      · rw [if_neg hk]
        refine descend_ctx r _ _ _ _ hr ?_ (by intro _; rfl)
        rw [CtxOk]
        exact ⟨⟨cl, hl⟩, hacc⟩

/-! ### insertFixup restores balance -/

theorem insFix_bal : (path : Path α) → ∀ (n : Nat) (z : RBT α),
    CtxOk path n → Bal z .red n →
    ∃ n', Bal (blackenRoot (insFix z path)) .black n'
  | [], n, z, _, hz => by
    rw [insFix]
    exact bal_blacken_any hz
  | [p], n, z, hctx, hz => by
    rw [insFix]
    obtain ⟨zl, zk, zsz, zr, rfl, hzl, hzr⟩ := bal_red_node hz
    rcases hfc : p.c with _ | _
    · rw [CtxOk, hfc] at hctx
      obtain ⟨hsib, _, _⟩ := hctx
      cases hd : p.d <;> simp [fill, plugF, hd, blackenRoot] <;>
        [exact ⟨_, Bal.black (Bal.red hzl hzr) hsib⟩;
         exact ⟨_, Bal.black hsib (Bal.red hzl hzr)⟩]
    · rw [CtxOk, hfc] at hctx
      obtain ⟨⟨cs, hsib⟩, _⟩ := hctx
      cases hd : p.d <;> simp [fill, plugF, hd, hfc, blackenRoot] <;>
        [exact ⟨_, Bal.black (Bal.red hzl hzr) hsib⟩;
         exact ⟨_, Bal.black hsib (Bal.red hzl hzr)⟩]
  | p :: g :: rest, n, z, hctx, hz => by
    rw [insFix]
    by_cases hp : p.c = .black
    · rw [if_pos hp]
      obtain ⟨n', hbal⟩ := fill_bal (p :: g :: rest) n z .red hctx hz
        (by intro _; simp [headColor, hp])
      exact bal_blacken_any hbal
    · rw [if_neg hp]
      have hpc : p.c = .red := by
        cases hcc : p.c
        · rfl
        · exact absurd hcc hp
      rw [CtxOk, hpc] at hctx
      obtain ⟨hpsib, hghead, hgctx⟩ := hctx
      have hgc : g.c = .black := hghead
      rw [CtxOk, hgc] at hgctx
      obtain ⟨⟨cu, huncle⟩, hrest⟩ := hgctx
      by_cases hu : rootColor g.sib = .red
      · rw [if_pos hu]
        have hcu : cu = .red := by rw [← bal_rootColor huncle, hu]
        subst hcu
        have hpB : Bal (plugF { p with c := Color.black } z) .black (n + 1) := by
          cases hd : p.d <;> simp [plugF, hd] <;>
            [exact Bal.black hz hpsib; exact Bal.black hpsib hz]
        have huB : Bal (blackenRoot g.sib) .black (n + 1) := by
          obtain ⟨ul, uk, usz, ur, hue, hul, hur⟩ := bal_red_node huncle
          rw [hue]
          exact Bal.black hul hur
        have hG : Bal (plugF { g with c := Color.red, sib := blackenRoot g.sib }
            (plugF { p with c := Color.black } z)) .red (n + 1) := by
          cases hd : g.d <;> simp [plugF, hd] <;>
            [exact Bal.red hpB huB; exact Bal.red huB hpB]
        exact insFix_bal rest (n + 1) _ hrest hG
      · rw [if_neg hu]
        have hcu : cu = .black := by
          cases hcc : cu
          · exact absurd (by rw [bal_rootColor huncle, hcc]) hu
          · rfl
        subst hcu
        obtain ⟨zl, zk, zsz, zr, rfl, hzl, hzr⟩ := bal_red_node hz
        cases hgd : g.d with
        | left =>
          have hS : ∀ (B1 : RBT α) (bk : α) (bsz : Nat) (B2 : RBT α) (c1 : Color),
              Bal B1 c1 n → Bal B2 .black n →
              ∃ n', Bal (blackenRoot (fill (rightRotateT
                (.node .red (.node .black B1 bk bsz B2) g.k g.sz g.sib)) rest))
                .black n' := by
            intro B1 bk bsz B2 c1 h1 h2
            have hSbal : Bal (rightRotateT (.node Color.red
                (.node Color.black B1 bk bsz B2) g.k g.sz g.sib)) .black (n + 1) := by
              simp [rightRotateT]
              exact Bal.black h1 (Bal.red h2 huncle)
            obtain ⟨n', hfb⟩ := fill_bal rest (n + 1) _ .black hrest hSbal (by simp)
            exact bal_blacken_any hfb
          by_cases hpd : p.d = .right
          · simp only [if_pos hpd]
            simp only [plugF, hpd, hpc, leftRotateT, blackenRoot]
            exact hS _ _ _ _ _ (Bal.red hpsib hzl) hzr
          · simp only [if_neg hpd]
            have hpd' : p.d = .left := by
              cases hx : p.d
              · rfl
              · exact absurd hx hpd
            simp only [plugF, hpd', hpc, blackenRoot]
            exact hS _ _ _ _ _ (Bal.red hzl hzr) hpsib
        | right =>
          have hS : ∀ (B1 : RBT α) (bk : α) (bsz : Nat) (B2 : RBT α) (c2 : Color),
              Bal B1 .black n → Bal B2 c2 n →
              ∃ n', Bal (blackenRoot (fill (leftRotateT
                (.node .red g.sib g.k g.sz (.node .black B1 bk bsz B2))) rest))
                .black n' := by
            intro B1 bk bsz B2 c2 h1 h2
            have hSbal : Bal (leftRotateT (.node Color.red g.sib g.k g.sz
                (.node Color.black B1 bk bsz B2))) .black (n + 1) := by
              simp [leftRotateT]
              exact Bal.black (Bal.red huncle h1) h2
            obtain ⟨n', hfb⟩ := fill_bal rest (n + 1) _ .black hrest hSbal (by simp)
            exact bal_blacken_any hfb
          by_cases hpd : p.d = .left
          · simp only [if_pos hpd]
            simp only [plugF, hpd, hpc, rightRotateT, blackenRoot]
            exact hS _ _ _ _ _ hzl (Bal.red hzr hpsib)
          · simp only [if_neg hpd]
            have hpd' : p.d = .right := by
              cases hx : p.d
              · exact absurd hx hpd
              · rfl
            simp only [plugF, hpd', hpc, blackenRoot]
            exact hS _ _ _ _ _ hpsib (Bal.red hzl hzr)

theorem insertGo_bal {t : RBT α} {n : Nat} (key : α) (h : Bal t .black n) :
    ∃ n', Bal (insertGo t key) .black n' := by
  rw [insertGo]
  refine insFix_bal _ 0 _ ?_ (Bal.red Bal.nil Bal.nil)
  exact descend_ctx t [] n .black key h trivial (by simp)

end Gostree

namespace Gostree

set_option linter.unusedSectionVars false

variable {α : Type} [LinearOrder α]

/-! ### deleteFixup Cases 3-4 restore balance -/

theorem delCase34L_bal {z s : RBT α} {pc : Color} {pk : α} {psz : Nat} {rst : Path α}
    {n : Nat} (hz : Bal z .black n) (hs : Bal s .black (n + 1))
    (hred : ¬(rootColor (leftT s) = .black ∧ rootColor (rightT s) = .black))
    (hctxr : pc = .red → CtxOk rst (n + 1) ∧ headColor rst = .black)
    (hctxb : pc = .black → CtxOk rst (n + 2)) :
    ∃ n', Bal (delCase34L z pc pk psz s rst) .black n' := by
  obtain ⟨sa, sx, ssz, sb, ca, cb, hse, hsa, hsb⟩ := bal_black_pos_node hs
  subst hse
  have hfin : ∀ (I1 I2 : RBT α) (xk : α) (xsz : Nat),
      Bal I1 .black (n + 1) → Bal I2 .black (n + 1) →
      ∃ n', Bal (blackenRoot (fill (.node pc I1 xk xsz I2) rst)) .black n' := by
    intro I1 I2 xk xsz h1 h2
    cases hpcc : pc with
    | red =>
      obtain ⟨hctx, hh⟩ := hctxr hpcc
      obtain ⟨n', hfb⟩ := fill_bal rst (n + 1) _ .red hctx (Bal.red h1 h2) (fun _ => hh)
      exact bal_blacken_any hfb
    | black =>
      obtain ⟨n', hfb⟩ := fill_bal rst (n + 2) _ .black (hctxb hpcc)
        (Bal.black h1 h2) (by simp)
      exact bal_blacken_any hfb
  rw [delCase34L.eq_def]
  cases sa with
  | nil =>
    -- the left child of the sibling is BLACK, so the right child is RED
    have hcb : rootColor sb = .red := by
      by_contra hcb
      refine hred ⟨rfl, ?_⟩
      show rootColor sb = Color.black
      cases hx : rootColor sb
      · exact absurd hx hcb
      · rfl
    have hcbe : cb = .red := by rw [← bal_rootColor hsb, hcb]
    subst hcbe
    obtain ⟨b1, bx, bsz, b2, hbe, hb1, hb2⟩ := bal_red_node hsb
    subst hbe
    dsimp only
    simp only [leftRotateT]
    exact hfin _ _ _ _ (Bal.black hz hsa) (Bal.black hb1 hb2)
  | node ac a1 ax asz a2 =>
    cases ac with
    | red =>
      obtain ⟨ha1, ha2⟩ : Bal a1 .black n ∧ Bal a2 .black n := by
        cases hsa with
        | red h1 h2 => exact ⟨h1, h2⟩
      by_cases hcb : rootColor sb = .black
      · -- Case 3 then Case 4
        simp only [if_pos hcb, rightRotateT, leftRotateT]
        have hcbe : cb = .black := by rw [← bal_rootColor hsb, hcb]
        subst hcbe
        exact hfin _ _ _ _ (Bal.black hz ha1) (Bal.black ha2 hsb)
      · -- Case 4 directly, right child RED
        have hcbe : cb = .red := by
          cases hx : cb
          · rfl
          · exact absurd (by rw [bal_rootColor hsb, hx]) hcb
        subst hcbe
        obtain ⟨b1, bx, bsz, b2, hbe, hb1, hb2⟩ := bal_red_node hsb
        subst hbe
        simp only [if_neg hcb, leftRotateT]
        exact hfin _ _ _ _ (Bal.black hz hsa) (Bal.black hb1 hb2)
    | black =>
      have hcb : rootColor sb = .red := by
        by_contra hcb
        refine hred ⟨rfl, ?_⟩
        show rootColor sb = Color.black
        cases hx : rootColor sb
        · exact absurd hx hcb
        · rfl
      have hcbe : cb = .red := by rw [← bal_rootColor hsb, hcb]
      subst hcbe
      obtain ⟨b1, bx, bsz, b2, hbe, hb1, hb2⟩ := bal_red_node hsb
      subst hbe
      dsimp only
      simp only [leftRotateT]
      exact hfin _ _ _ _ (Bal.black hz hsa) (Bal.black hb1 hb2)

theorem delCase34R_bal {z s : RBT α} {pc : Color} {pk : α} {psz : Nat} {rst : Path α}
    {n : Nat} (hz : Bal z .black n) (hs : Bal s .black (n + 1))
    (hred : ¬(rootColor (rightT s) = .black ∧ rootColor (leftT s) = .black))
    (hctxr : pc = .red → CtxOk rst (n + 1) ∧ headColor rst = .black)
    (hctxb : pc = .black → CtxOk rst (n + 2)) :
    ∃ n', Bal (delCase34R z pc pk psz s rst) .black n' := by
  obtain ⟨sa, sx, ssz, sb, ca, cb, hse, hsa, hsb⟩ := bal_black_pos_node hs
  subst hse
  have hfin : ∀ (I1 I2 : RBT α) (xk : α) (xsz : Nat),
      Bal I1 .black (n + 1) → Bal I2 .black (n + 1) →
      ∃ n', Bal (blackenRoot (fill (.node pc I1 xk xsz I2) rst)) .black n' := by
    intro I1 I2 xk xsz h1 h2
    cases hpcc : pc with
    | red =>
      obtain ⟨hctx, hh⟩ := hctxr hpcc
      obtain ⟨n', hfb⟩ := fill_bal rst (n + 1) _ .red hctx (Bal.red h1 h2) (fun _ => hh)
      exact bal_blacken_any hfb
    | black =>
      obtain ⟨n', hfb⟩ := fill_bal rst (n + 2) _ .black (hctxb hpcc)
        (Bal.black h1 h2) (by simp)
      exact bal_blacken_any hfb
  rw [delCase34R.eq_def]
  cases sb with
  | nil =>
    have hca : rootColor sa = .red := by
      by_contra hca
      refine hred ⟨rfl, ?_⟩
      show rootColor sa = Color.black
      cases hx : rootColor sa
      · exact absurd hx hca
      · rfl
    have hcae : ca = .red := by rw [← bal_rootColor hsa, hca]
    subst hcae
    obtain ⟨a1, ax, asz, a2, hae, ha1, ha2⟩ := bal_red_node hsa
    subst hae
    dsimp only
    simp only [rightRotateT]
    exact hfin _ _ _ _ (Bal.black ha1 ha2) (Bal.black hsb hz)
  | node bc b1 bx bsz b2 =>
    cases bc with
    | red =>
      obtain ⟨hb1, hb2⟩ : Bal b1 .black n ∧ Bal b2 .black n := by
        cases hsb with
        | red h1 h2 => exact ⟨h1, h2⟩
      by_cases hca : rootColor sa = .black
      · simp only [if_pos hca, leftRotateT, rightRotateT]
        have hcae : ca = .black := by rw [← bal_rootColor hsa, hca]
        subst hcae
        exact hfin _ _ _ _ (Bal.black hsa hb1) (Bal.black hb2 hz)
      · have hcae : ca = .red := by
          cases hx : ca
          · rfl
          · exact absurd (by rw [bal_rootColor hsa, hx]) hca
        subst hcae
        obtain ⟨a1, ax, asz, a2, hae, ha1, ha2⟩ := bal_red_node hsa
        subst hae
        simp only [if_neg hca, rightRotateT]
        exact hfin _ _ _ _ (Bal.black ha1 ha2) (Bal.black hsb hz)
    | black =>
      have hca : rootColor sa = .red := by
        by_contra hca
        refine hred ⟨rfl, ?_⟩
        show rootColor sa = Color.black
        cases hx : rootColor sa
        · exact absurd hx hca
        · rfl
      have hcae : ca = .red := by rw [← bal_rootColor hsa, hca]
      subst hcae
      obtain ⟨a1, ax, asz, a2, hae, ha1, ha2⟩ := bal_red_node hsa
      subst hae
      dsimp only
      simp only [rightRotateT]
      exact hfin _ _ _ _ (Bal.black ha1 ha2) (Bal.black hsb hz)

end Gostree

namespace Gostree

set_option linter.unusedSectionVars false

variable {α : Type} [LinearOrder α]

/-! ### deleteFixup restores balance at a one-black deficit -/

theorem delFix_bal : (path : Path α) → ∀ (n : Nat) (z : RBT α) (c : Color),
    CtxOk path (n + 1) → Bal z c n → rootOk path →
    ∃ n', Bal (delFix z path) .black n'
  | [], n, z, c, _, hz, _ => by
    rw [delFix]
    exact bal_blacken_any hz
  | p :: rest, n, z, c, hctx, hz, hrOk => by
    obtain ⟨pd, pcc, pk, psz, psib⟩ := p
    rw [delFix]
    by_cases hzc : rootColor z = .red
    · rw [if_pos hzc]
      have hcr : c = .red := by rw [← bal_rootColor hz, hzc]
      subst hcr
      obtain ⟨zl, zk, zsz, zr, rfl, hzl, hzr⟩ := bal_red_node hz
      have hzb : Bal (blackenRoot (.node Color.red zl zk zsz zr)) .black (n + 1) :=
        Bal.black hzl hzr
      obtain ⟨n', hfb⟩ := fill_bal _ (n + 1) _ .black hctx hzb (by simp)
      rw [lastColorD_cons] at hfb
      have hro : lastColorD rest pcc = Color.black := hrOk
      rw [hro] at hfb
      exact ⟨n', hfb⟩
    · rw [if_neg hzc]
      have hcb : c = .black := by
        cases hcc : c
        · exact absurd (by rw [bal_rootColor hz, hcc]) hzc
        · rfl
      subst hcb
      have hro : lastColorD rest pcc = Color.black := hrOk
      cases pd with
      | left =>
        cases hpc : pcc with
        | red =>
          subst hpc
          rw [CtxOk] at hctx
          simp only at hctx
          obtain ⟨hsib, hhead, hrest⟩ := hctx
          have hrne : rest ≠ [] := by
            intro he
            rw [he] at hro
            exact absurd (show Color.red = Color.black from hro) (by simp)
          obtain ⟨sa, sx, ssz, sb, ca, cb, hse, hsa, hsb⟩ := bal_black_pos_node hsib
          subst hse
          dsimp only
          by_cases h2 : rootColor sa = .black ∧ rootColor sb = .black
          · rw [if_pos (by exact h2)]
            rw [if_pos (Or.inl rfl)]
            have hca : ca = .black := by rw [← bal_rootColor hsa, h2.1]
            have hcb : cb = .black := by rw [← bal_rootColor hsb, h2.2]
            subst hca; subst hcb
            have hF : Bal (blackenRoot (plugF
                ⟨Dir.left, Color.red, pk, psz,
                  reddenRoot (.node Color.black sa sx ssz sb)⟩ z)) .black (n + 1) := by
              simp only [plugF, reddenRoot, blackenRoot]
              exact Bal.black hz (Bal.red hsa hsb)
            obtain ⟨n', hfb⟩ := fill_bal rest (n + 1) _ .black hrest hF (by simp)
            rw [lastColorD_const rest hrne _ Color.red, hro] at hfb
            exact ⟨n', hfb⟩
          · rw [if_neg (by exact h2)]
            exact delCase34L_bal hz hsib (by exact h2)
              (fun _ => ⟨hrest, hhead⟩) (fun h => by cases h)
        | black =>
          subst hpc
          rw [CtxOk] at hctx
          simp only at hctx
          obtain ⟨⟨cs, hsib⟩, hrest⟩ := hctx
          cases psib with
          | nil =>
            obtain ⟨_, h0⟩ := bal_nil_inv hsib
            cases h0
          | node sc sl sk ssz2 sr =>
            cases sc with
            | red =>
              -- Case 1
              have hcs : cs = .red := by rw [← bal_rootColor hsib]; rfl
              subst hcs
              have hsl : Bal sl .black (n + 1) ∧ Bal sr .black (n + 1) := by
                cases hsib with
                | red h1 h2 => exact ⟨h1, h2⟩
              obtain ⟨hsl, hsr⟩ := hsl
              obtain ⟨sa, sx, sasz, sb, ca, cb, hse, hsa, hsb⟩ := bal_black_pos_node hsl
              subst hse
              dsimp only
              by_cases h2 : rootColor sa = .black ∧ rootColor sb = .black
              · rw [if_pos (by exact h2)]
                have hca : ca = .black := by rw [← bal_rootColor hsa, h2.1]
                have hcb : cb = .black := by rw [← bal_rootColor hsb, h2.2]
                subst hca; subst hcb
                have hF : Bal (blackenRoot (.node Color.red z pk
                    (size z + size (.node Color.black sa sx sasz sb) + 1)
                    (reddenRoot (.node Color.black sa sx sasz sb)))) .black (n + 1) := by
                  simp only [reddenRoot, blackenRoot]
                  exact Bal.black hz (Bal.red hsa hsb)
                have hqctx : CtxOk
                    ({ d := Dir.left, c := Color.black, k := sk,
                       sz := size z + size (.node Color.black sa sx sasz sb) + 1 + size sr + 1,
                       sib := sr } :: rest) (n + 1) := by
                  rw [CtxOk]
                  exact ⟨⟨.black, hsr⟩, hrest⟩
                obtain ⟨n', hfb⟩ := fill_bal _ (n + 1) _ .black hqctx hF (by simp)
                rw [lastColorD_cons] at hfb
                simp only at hfb
                rw [show lastColorD rest Color.black = Color.black from hro] at hfb
                exact ⟨n', hfb⟩
              · rw [if_neg (by exact h2)]
                refine delCase34L_bal hz hsl (by exact h2) (fun _ => ⟨?_, rfl⟩)
                  (fun h => by cases h)
                rw [CtxOk]
                exact ⟨⟨.black, hsr⟩, hrest⟩
            | black =>
              have hcs : cs = .black := by rw [← bal_rootColor hsib]; rfl
              subst hcs
              obtain ⟨cl, cr, hsl, hsr⟩ : ∃ cl cr, Bal sl cl n ∧ Bal sr cr n := by
                cases hsib with
                | black h1 h2 => exact ⟨_, _, h1, h2⟩
              dsimp only
              by_cases h2 : rootColor sl = .black ∧ rootColor sr = .black
              · rw [if_pos (by exact h2)]
                have hcl : cl = .black := by rw [← bal_rootColor hsl, h2.1]
                have hcr : cr = .black := by rw [← bal_rootColor hsr, h2.2]
                subst hcl; subst hcr
                have hF : Bal (plugF ⟨Dir.left, Color.black, pk, psz,
                    reddenRoot (.node Color.black sl sk ssz2 sr)⟩ z) .black (n + 1) := by
                  simp only [plugF, reddenRoot]
                  exact Bal.black hz (Bal.red hsl hsr)
                by_cases hrne : rest = []
                · rw [if_pos (Or.inr hrne)]
                  subst hrne
                  exact bal_blacken_any hF
                · rw [if_neg (fun h => h.elim (fun h1 => by cases h1) hrne)]
                  exact delFix_bal rest (n + 1) _ .black hrest hF
                    (rootOk_tail hrOk hrne)
              · rw [if_neg (by exact h2)]
                exact delCase34L_bal hz hsib (by exact h2)
                  (fun h => by cases h) (fun _ => hrest)
      | right =>
        cases hpc : pcc with
        | red =>
          subst hpc
          rw [CtxOk] at hctx
          simp only at hctx
          obtain ⟨hsib, hhead, hrest⟩ := hctx
          have hrne : rest ≠ [] := by
            intro he
            rw [he] at hro
            exact absurd (show Color.red = Color.black from hro) (by simp)
          obtain ⟨sa, sx, ssz, sb, ca, cb, hse, hsa, hsb⟩ := bal_black_pos_node hsib
          subst hse
          dsimp only
          by_cases h2 : rootColor sb = .black ∧ rootColor sa = .black
          · rw [if_pos (by exact h2)]
            rw [if_pos (Or.inl rfl)]
            have hca : ca = .black := by rw [← bal_rootColor hsa, h2.2]
            have hcb : cb = .black := by rw [← bal_rootColor hsb, h2.1]
            subst hca; subst hcb
            have hF : Bal (blackenRoot (plugF
                ⟨Dir.right, Color.red, pk, psz,
                  reddenRoot (.node Color.black sa sx ssz sb)⟩ z)) .black (n + 1) := by
              simp only [plugF, reddenRoot, blackenRoot]
              exact Bal.black (Bal.red hsa hsb) hz
            obtain ⟨n', hfb⟩ := fill_bal rest (n + 1) _ .black hrest hF (by simp)
            rw [lastColorD_const rest hrne _ Color.red, hro] at hfb
            exact ⟨n', hfb⟩
          · rw [if_neg (by exact h2)]
            exact delCase34R_bal hz hsib (by exact h2)
              (fun _ => ⟨hrest, hhead⟩) (fun h => by cases h)
        | black =>
          subst hpc
          rw [CtxOk] at hctx
          simp only at hctx
          obtain ⟨⟨cs, hsib⟩, hrest⟩ := hctx
          cases psib with
          | nil =>
            obtain ⟨_, h0⟩ := bal_nil_inv hsib
            cases h0
          | node sc sl sk ssz2 sr =>
            cases sc with
            | red =>
              have hcs : cs = .red := by rw [← bal_rootColor hsib]; rfl
              subst hcs
              have hslr : Bal sl .black (n + 1) ∧ Bal sr .black (n + 1) := by
                cases hsib with
                | red h1 h2 => exact ⟨h1, h2⟩
              obtain ⟨hsl, hsr⟩ := hslr
              obtain ⟨sa, sx, sasz, sb, ca, cb, hse, hsa, hsb⟩ := bal_black_pos_node hsr
              subst hse
              dsimp only
              by_cases h2 : rootColor sb = .black ∧ rootColor sa = .black
              · rw [if_pos (by exact h2)]
                have hca : ca = .black := by rw [← bal_rootColor hsa, h2.2]
                have hcb : cb = .black := by rw [← bal_rootColor hsb, h2.1]
                subst hca; subst hcb
                have hF : Bal (blackenRoot (.node Color.red
                    (reddenRoot (.node Color.black sa sx sasz sb)) pk
                    (size (.node Color.black sa sx sasz sb) + size z + 1) z))
                    .black (n + 1) := by
                  simp only [reddenRoot, blackenRoot]
                  exact Bal.black (Bal.red hsa hsb) hz
                have hqctx : CtxOk
                    ({ d := Dir.right, c := Color.black, k := sk,
                       sz := size sl + (size (.node Color.black sa sx sasz sb) + size z + 1) + 1,
                       sib := sl } :: rest) (n + 1) := by
                  rw [CtxOk]
                  exact ⟨⟨.black, hsl⟩, hrest⟩
                obtain ⟨n', hfb⟩ := fill_bal _ (n + 1) _ .black hqctx hF (by simp)
                rw [lastColorD_cons] at hfb
                simp only at hfb
                rw [show lastColorD rest Color.black = Color.black from hro] at hfb
                exact ⟨n', hfb⟩
              · rw [if_neg (by exact h2)]
                refine delCase34R_bal hz hsr (by exact h2) (fun _ => ⟨?_, rfl⟩)
                  (fun h => by cases h)
                rw [CtxOk]
                exact ⟨⟨.black, hsl⟩, hrest⟩
            | black =>
              have hcs : cs = .black := by rw [← bal_rootColor hsib]; rfl
              subst hcs
              obtain ⟨cl, cr, hsl, hsr⟩ : ∃ cl cr, Bal sl cl n ∧ Bal sr cr n := by
                cases hsib with
                | black h1 h2 => exact ⟨_, _, h1, h2⟩
              dsimp only
              by_cases h2 : rootColor sr = .black ∧ rootColor sl = .black
              · rw [if_pos (by exact h2)]
                have hcl : cl = .black := by rw [← bal_rootColor hsl, h2.2]
                have hcr : cr = .black := by rw [← bal_rootColor hsr, h2.1]
                subst hcl; subst hcr
                have hF : Bal (plugF ⟨Dir.right, Color.black, pk, psz,
                    reddenRoot (.node Color.black sl sk ssz2 sr)⟩ z) .black (n + 1) := by
                  simp only [plugF, reddenRoot]
                  exact Bal.black (Bal.red hsl hsr) hz
                by_cases hrne : rest = []
                · rw [if_pos (Or.inr hrne)]
                  subst hrne
                  exact bal_blacken_any hF
                · rw [if_neg (fun h => h.elim (fun h1 => by cases h1) hrne)]
                  exact delFix_bal rest (n + 1) _ .black hrest hF
                    (rootOk_tail hrOk hrne)
              · rw [if_neg (by exact h2)]
                exact delCase34R_bal hz hsib (by exact h2)
                  (fun h => by cases h) (fun _ => hrest)

end Gostree

namespace Gostree

set_option linter.unusedSectionVars false

variable {α : Type} [LinearOrder α]

/-! ### The search and minimum walks produce balanced contexts -/

theorem rootOk_of_lastColorD {p : Path α} {a : Color} (h : lastColorD p a = .black) :
    rootOk p := by
  cases p with
  | nil => trivial
  | cons f rest => exact h

theorem searchZ_ctx {key : α} : (t : RBT α) → (acc : Path α) → ∀ (n : Nat) (ct : Color)
    {fz : RBT α} {p : Path α},
    Bal t ct n → CtxOk acc n → (ct = .red → headColor acc = .black) →
    searchZ t key acc = some (fz, p) →
    ∃ cf nf, Bal fz cf nf ∧ CtxOk p nf ∧ (cf = .red → headColor p = .black)
  | .nil, acc, n, ct, fz, p, _, _, _, h => by simp [searchZ] at h
  | .node c l k sz r, acc, n, ct, fz, p, hbal, hacc, hhead, h => by
    rw [searchZ] at h
    by_cases h1 : key < k
    · rw [if_pos h1] at h
      cases hbal with
      | red hl hr =>
        refine searchZ_ctx l _ _ _ hl ?_ (by simp) h
        rw [CtxOk]
        exact ⟨hr, hhead rfl, hacc⟩
      | black hl hr =>
        refine searchZ_ctx l _ _ _ hl ?_ (by intro _; rfl) h
        rw [CtxOk]
        exact ⟨⟨_, hr⟩, hacc⟩
    · rw [if_neg h1] at h
      by_cases h2 : k < key
      · rw [if_pos h2] at h
        cases hbal with
        | red hl hr =>
          refine searchZ_ctx r _ _ _ hr ?_ (by simp) h
          rw [CtxOk]
          exact ⟨hl, hhead rfl, hacc⟩
        | black hl hr =>
          refine searchZ_ctx r _ _ _ hr ?_ (by intro _; rfl) h
          rw [CtxOk]
          exact ⟨⟨_, hl⟩, hacc⟩
      · rw [if_neg h2] at h
        obtain ⟨rfl, rfl⟩ : fz = RBT.node c l k sz r ∧ p = acc := by
          cases h; exact ⟨rfl, rfl⟩
        exact ⟨ct, n, hbal, hacc, hhead⟩

theorem minZ_ctx : (t : RBT α) → (acc : Path α) → ∀ (n : Nat) (ct : Color),
    Bal t ct n → CtxOk acc n → (ct = .red → headColor acc = .black) →
    ∃ cf nf, Bal (minZ t acc).1 cf nf ∧ CtxOk (minZ t acc).2 nf ∧
      (cf = .red → headColor (minZ t acc).2 = .black)
  | .nil, acc, n, ct, hbal, hacc, hhead => ⟨ct, n, hbal, hacc, hhead⟩
  | .node c .nil k sz r, acc, n, ct, hbal, hacc, hhead =>
    ⟨ct, n, hbal, hacc, hhead⟩
  | .node c (.node lc ll lk lsz lr) k sz r, acc, n, ct, hbal, hacc, hhead => by
    rw [minZ]
    cases hbal with
    | red hl hr =>
      refine minZ_ctx _ _ _ _ hl ?_ (by simp)
      rw [CtxOk]
      exact ⟨hr, hhead rfl, hacc⟩
    | black hl hr =>
      refine minZ_ctx _ _ _ _ hl ?_ (by intro _; rfl)
      rw [CtxOk]
      exact ⟨⟨_, hr⟩, hacc⟩

theorem minZ_acc : (t : RBT α) → (acc : Path α) →
    minZ t acc = ((minZ t []).1, (minZ t []).2 ++ acc)
  | .nil, acc => by simp [minZ]
  | .node c .nil k sz r, acc => by simp [minZ]
  | .node c (.node lc ll lk lsz lr) k sz r, acc => by
    rw [minZ]
    rw [minZ_acc (.node lc ll lk lsz lr)
      ({ d := Dir.left, c := c, k := k, sz := sz, sib := r } :: acc)]
    conv_rhs =>
      rw [minZ, minZ_acc (.node lc ll lk lsz lr)
        [{ d := Dir.left, c := c, k := k, sz := sz, sib := r }]]
    simp

/-! ### Deletion restores balance -/

theorem deleteNodeGo_bal {c : Color} {l r : RBT α} {k : α} {sz : Nat} {path : Path α}
    {nf : Nat} (hbal : Bal (.node c l k sz r) c nf) (hctx : CtxOk path nf)
    (hhead : c = .red → headColor path = .black)
    (hroot : lastColorD path c = .black) :
    ∃ n', Bal (deleteNodeGo (.node c l k sz r) path).1 .black n' := by
  rw [deleteNodeGo.eq_def]
  cases l with
  | nil =>
    cases hbal with
    | red h1 h2 =>
      obtain ⟨_, rfl⟩ := bal_nil_inv h1
      have hr2 : r = .nil := by
        cases h2 with
        | nil => rfl
      subst hr2
      dsimp only
      rw [if_neg (by simp)]
      obtain ⟨n', hfb⟩ := fill_bal (updSz path 0) 0 _ .black
        ((ctxOk_updSz path _ _).2 hctx) Bal.nil (by simp)
      rw [lastColorD_updSz] at hfb
      cases hpath : path with
      | nil =>
        subst hpath
        exact absurd (show Color.red = Color.black from hroot) (by simp)
      | cons f rest =>
        subst hpath
        rw [lastColorD_const (f :: rest) (by simp) Color.black Color.red, hroot] at hfb
        exact ⟨n', hfb⟩
    | @black _ _ _ _ m cl cr h1 h2 =>
      obtain ⟨_, rfl⟩ := bal_nil_inv h1
      dsimp only
      rw [if_pos rfl]
      refine delFix_bal (updSz path (size r)) 0 r cr
        ((ctxOk_updSz path _ _).2 hctx) h2 ?_
      exact rootOk_updSz (rootOk_of_lastColorD hroot)
  | node lc ll lk lsz lr =>
    cases r with
    | nil =>
      cases hbal with
      | red h1 h2 =>
        obtain ⟨_, rfl⟩ := bal_nil_inv h2
        cases h1
      | @black _ _ _ _ m cl cr h1 h2 =>
        obtain ⟨_, rfl⟩ := bal_nil_inv h2
        dsimp only
        rw [if_pos rfl]
        refine delFix_bal _ 0 _ cl
          ((ctxOk_updSz path _ _).2 hctx) h1 ?_
        exact rootOk_updSz (rootOk_of_lastColorD hroot)
    | node rc rl rk rsz rr =>
      dsimp only
      obtain ⟨m, cl, cr, hl, hr, hcase⟩ : ∃ m cl cr,
          Bal (.node lc ll lk lsz lr) cl m ∧ Bal (.node rc rl rk rsz rr) cr m ∧
            ((c = .red ∧ nf = m ∧ cl = .black ∧ cr = .black) ∨
             (c = .black ∧ nf = m + 1)) := by
        cases hbal with
        | red h1 h2 => exact ⟨_, _, _, h1, h2, Or.inl ⟨rfl, rfl, rfl, rfl⟩⟩
        | black h1 h2 => exact ⟨_, _, _, h1, h2, Or.inr ⟨rfl, rfl⟩⟩
      rcases hmin : minZ (RBT.node rc rl rk rsz rr) [] with ⟨S, sucP⟩
      obtain ⟨_, _, hshape⟩ := minZ_spec (RBT.node rc rl rk rsz rr) []
      rw [hmin] at hshape
      obtain ⟨c2, k2, sz2, r2, hS⟩ := hshape (by simp)
      subst hS
      dsimp only
      -- the frame of the spliced successor node
      have hctxF : CtxOk (({ d := Dir.right, c := c, k := k2, sz := sz2, sib := RBT.node lc ll lk lsz lr } : Frame α) :: path) m := by
        rcases hcase with ⟨hc, hnf, hcl, hcr⟩ | ⟨hc, hnf⟩
        · subst hc; subst hnf; subst hcl
          rw [CtxOk]
          exact ⟨hl, hhead rfl, hctx⟩
        · subst hc; subst hnf
          rw [CtxOk]
          exact ⟨⟨cl, hl⟩, hctx⟩
      have hheadF : cr = .red → headColor (({ d := Dir.right, c := c, k := k2, sz := sz2, sib := RBT.node lc ll lk lsz lr } : Frame α) :: path) = .black := by
        intro hcr
        rcases hcase with ⟨hc, _, _, hcr'⟩ | ⟨hc, _⟩
        · rw [hcr] at hcr'; cases hcr'
        · rw [headColor, hc]
      obtain ⟨cS, nS, hSbal, hSctx, hShead⟩ := by
        have := minZ_ctx (RBT.node rc rl rk rsz rr)
          (({ d := Dir.right, c := c, k := k2, sz := sz2, sib := RBT.node lc ll lk lsz lr } : Frame α) :: path) m cr hr hctxF hheadF
        rwa [minZ_acc, hmin] at this
      have hlast : ∀ a : Color, lastColorD (sucP ++
          (({ d := Dir.right, c := c, k := k2, sz := sz2, sib := RBT.node lc ll lk lsz lr } : Frame α) :: path)) a = .black := by
        intro a
        rw [lastColorD_append, lastColorD_cons]
        exact hroot
      cases hSbal with
      | red hS1 hS2 =>
        obtain ⟨_, rfl⟩ := bal_nil_inv hS1
        have hr2 : r2 = .nil := by
          cases hS2 with
          | nil => rfl
        subst hr2
        rw [if_neg (by simp)]
        obtain ⟨n', hfb⟩ := fill_bal _ 0 _ .black
          ((ctxOk_updSz _ _ _).2 hSctx) Bal.nil (by simp)
        rw [lastColorD_updSz, hlast] at hfb
        exact ⟨n', hfb⟩
      | @black _ _ _ _ m2 cr1 cr2 hS1 hS2 =>
        obtain ⟨_, rfl⟩ := bal_nil_inv hS1
        rw [if_pos rfl]
        refine delFix_bal _ 0 _ cr2 ((ctxOk_updSz _ _ _).2 hSctx) hS2 ?_
        exact rootOk_updSz (rootOk_of_lastColorD (hlast Color.black))

theorem deleteGo_bal {t : RBT α} {n : Nat} (key : α) (h : Bal t .black n) :
    ∃ n', Bal (deleteGo t key).2.1 .black n' := by
  cases hs : searchZ t key [] with
  | none => rw [deleteGo_none hs]; exact ⟨n, h⟩
  | some v =>
    rcases v with ⟨f, p⟩
    rw [(deleteGo_some hs).2]
    obtain ⟨cf, nf, hbf, hctx, hhead⟩ := searchZ_ctx t [] n .black h trivial (by simp) hs
    obtain ⟨hfill, c, l, sz, r, hshape⟩ := searchZ_some t [] hs
    subst hshape
    have hcf : cf = c := by rw [← bal_rootColor hbf]; rfl
    subst hcf
    have hroot : lastColorD p cf = .black := by
      have h1 := fill_rootColor p (RBT.node cf l key sz r)
      simp only [rootColor_node] at h1
      rw [hfill] at h1
      rw [← h1]
      exact bal_rootColor h
    exact deleteNodeGo_bal hbf hctx hhead hroot

end Gostree

namespace Gostree

set_option linter.unusedSectionVars false

variable {α : Type} [LinearOrder α]

/-! ### Select correctness -/

theorem selectNodeGo_keyD [Inhabited α] : (t : RBT α) → sizeOK t → ∀ j : Nat,
    j < realSize t →
    keyD (selectNodeGo t j) = (inorder t).getD j default ∧ selectNodeGo t j ≠ .nil
  | .nil, _, j, hj => by simp [realSize] at hj
  | .node c l k sz r, ht, j, hj => by
    obtain ⟨hl, hr, hsz⟩ := ht
    have hlen : (inorder l).length = realSize l := (realSize_eq_length_inorder l).symm
    have hsl : size l = realSize l := size_eq_realSize hl
    rw [selectNodeGo]
    by_cases h1 : j < size l
    · rw [if_pos h1]
      obtain ⟨hkey, hne⟩ := selectNodeGo_keyD l hl j (by omega)
      refine ⟨?_, hne⟩
      rw [hkey, inorder_node, List.getD_append]
      omega
    · rw [if_neg h1]
      by_cases h2 : j = size l
      · rw [if_pos h2]
        refine ⟨?_, by simp⟩
        rw [keyD, inorder_node]
        rw [List.getD_eq_getElem?_getD, List.getElem?_append_right (by omega)]
        simp [h2, hsl, hlen]
      · rw [if_neg h2]
        have hjr : j - size l - 1 < realSize r := by
          simp [realSize] at hj
          omega
        obtain ⟨hkey, hne⟩ := selectNodeGo_keyD r hr _ hjr
        refine ⟨?_, hne⟩
        rw [hkey, inorder_node]
        symm
        rw [List.getD_eq_getElem?_getD, List.getElem?_append_right (by omega)]
        have : j - (inorder l).length = (j - size l - 1) + 1 := by omega
        rw [this]
        simp [List.getD_eq_getElem?_getD]

theorem selectGo_spec [Inhabited α] {t : RBT α} (hsz : sizeOK t) (k : Int) :
    (selectGo t k = none ↔ k < 0 ∨ ((inorder t).length : Int) ≤ k) ∧
      (0 ≤ k → k < ((inorder t).length : Int) →
        selectGo t k = some ((inorder t).getD k.toNat default)) := by
  have hlen : size t = (inorder t).length := by
    rw [size_eq_realSize hsz, realSize_eq_length_inorder]
  constructor
  · rw [selectGo, hlen]
    by_cases hc : k < 0 ∨ ((inorder t).length : Int) ≤ k
    · simp [hc]
    · simp [hc]
  · intro h0 hk
    rw [selectGo, hlen]
    rw [if_neg (by omega)]
    have hjr : k.toNat < realSize t := by
      rw [realSize_eq_length_inorder]
      omega
    obtain ⟨hkey, _⟩ := selectNodeGo_keyD t hsz k.toNat hjr
    rw [hkey]

/-! ### State-level invariant preservation -/

theorem wf_newTree : WF (newTree α) :=
  ⟨⟨0, Bal.nil⟩, trivial, List.sorted_nil, rfl, rfl, rfl, rfl⟩

theorem wf_treeInsert {t : GoTree α} (key : α) (h : WF t) : WF (treeInsert t key) := by
  obtain ⟨⟨n, hbal⟩, hsz, hsort, hc, hs0, hl, hr⟩ := h
  exact ⟨insertGo_bal key hbal, insertGo_sizeOK key hsz, insertGo_sorted key hsort,
    hc, hs0, hl, hr⟩

theorem wf_treeDelete {t : GoTree α} (key : α) (h : WF t) : WF (treeDelete t key).2 := by
  obtain ⟨⟨n, hbal⟩, hsz, hsort, hc, hs0, hl, hr⟩ := h
  rw [treeDelete]
  rcases hd : deleteGo t.root key with ⟨b, r', w⟩
  have h1 : ∃ n', Bal (deleteGo t.root key).2.1 .black n' := deleteGo_bal key hbal
  have h2 : sizeOK (deleteGo t.root key).2.1 := deleteGo_sizeOK key hsz
  have h3 : (inorder (deleteGo t.root key).2.1).Sorted (· ≤ ·) := deleteGo_sorted key hsort
  rw [hd] at h1 h2 h3
  exact ⟨h1, h2, h3, hc, hs0, hl, hr⟩

theorem wf_applyOp {t : GoTree α} (op : Op α) (h : WF t) : WF (applyOp t op) := by
  cases op with
  | insert k => exact wf_treeInsert k h
  | delete k => exact wf_treeDelete k h
  | search k => exact h
  | select k => exact h
  | rank k => exact h

theorem wf_applyOps : (ops : List (Op α)) → ∀ t : GoTree α, WF t → WF (applyOps t ops)
  | [], t, h => h
  | op :: ops, t, h => wf_applyOps ops _ (wf_applyOp op h)

theorem wf_reachable {t : GoTree α} (h : Reachable t) : WF t := by
  obtain ⟨ops, rfl⟩ := h
  exact wf_applyOps ops _ wf_newTree

end Gostree

namespace Gostree

set_option linter.unusedSectionVars false

variable {α : Type} [LinearOrder α]

/-! ### Termination of the loops: the fueled translations halt within
an explicit bound and agree with the structural translations -/

theorem plugF_ne_nil (f : Frame α) (z : RBT α) : plugF f z ≠ .nil := by
  cases hd : f.d <;> simp [plugF, hd]

theorem leftRotateT_ne_nil {t : RBT α} (h : t ≠ .nil) : leftRotateT t ≠ .nil := by
  cases t with
  | nil => exact absurd rfl h
  | node c l k sz r => cases r <;> simp [leftRotateT]

theorem rightRotateT_ne_nil {t : RBT α} (h : t ≠ .nil) : rightRotateT t ≠ .nil := by
  cases t with
  | nil => exact absurd rfl h
  | node c l k sz r => cases l <;> simp [rightRotateT]

theorem blackenRoot_of_ne_nil {t : RBT α} (h : t ≠ .nil) :
    ∃ a ka sa b, blackenRoot t = .node .black a ka sa b := by
  cases t with
  | nil => exact absurd rfl h
  | node c l k sz r => exact ⟨l, k, sz, r, rfl⟩

theorem descendL_eq : (t : RBT α) → ∀ (fuel : Nat) (key : α) (acc : Path α),
    heightT t < fuel → descendL fuel t key acc = some (descend t key acc)
  | .nil, fuel, key, acc, h => by
    cases fuel with
    | zero => omega
    | succ f => rfl
  | .node c l k sz r, fuel, key, acc, h => by
    cases fuel with
    | zero => omega
    | succ f =>
      have hm : max (heightT l) (heightT r) < f := by
        simpa [heightT, Nat.succ_lt_succ_iff] using h
      rw [descendL, descend]
      by_cases hk : key < k
      · rw [if_pos hk, if_pos hk,
          descendL_eq l f key _ (lt_of_le_of_lt (le_max_left _ _) hm)]
      · rw [if_neg hk, if_neg hk,
          descendL_eq r f key _ (lt_of_le_of_lt (le_max_right _ _) hm)]

theorem searchL_eq : (t : RBT α) → ∀ (fuel : Nat) (key : α) (acc : Path α),
    heightT t < fuel → searchL fuel t key = some (searchZ t key acc).isSome
  | .nil, fuel, key, acc, h => by
    cases fuel with
    | zero => omega
    | succ f => simp [searchL, searchZ]
  | .node c l k sz r, fuel, key, acc, h => by
    cases fuel with
    | zero => omega
    | succ f =>
      have hm : max (heightT l) (heightT r) < f := by
        simpa [heightT, Nat.succ_lt_succ_iff] using h
      rw [searchL, searchZ]
      by_cases h1 : key < k
      · rw [if_pos h1, if_pos h1,
          searchL_eq l f key _ (lt_of_le_of_lt (le_max_left _ _) hm)]
      · rw [if_neg h1]
        by_cases h2 : k < key
        · rw [if_pos h2, if_neg h1, if_pos h2,
            searchL_eq r f key _ (lt_of_le_of_lt (le_max_right _ _) hm)]
        · rw [if_neg h2, if_neg h1, if_neg h2]
          rfl

theorem selectL_eq : (t : RBT α) → ∀ (fuel j : Nat),
    heightT t < fuel → selectL fuel t j = some (selectNodeGo t j)
  | .nil, fuel, j, h => by
    cases fuel with
    | zero => omega
    | succ f => rfl
  | .node c l k sz r, fuel, j, h => by
    cases fuel with
    | zero => omega
    | succ f =>
      have hm : max (heightT l) (heightT r) < f := by
        simpa [heightT, Nat.succ_lt_succ_iff] using h
      rw [selectL, selectNodeGo]
      by_cases h1 : j < size l
      · rw [if_pos h1, if_pos h1,
          selectL_eq l f j (lt_of_le_of_lt (le_max_left _ _) hm)]
      · rw [if_neg h1]
        by_cases h2 : j = size l
        · rw [if_pos h2, if_neg h1, if_pos h2]
        · rw [if_neg h2, if_neg h1, if_neg h2,
            selectL_eq r f _ (lt_of_le_of_lt (le_max_right _ _) hm)]

theorem rankL_eq : (t : RBT α) → ∀ (fuel : Nat) (key : α) (acc : Nat),
    heightT t < fuel → rankL fuel t key acc = some (acc + rankGo t key)
  | .nil, fuel, key, acc, h => by
    cases fuel with
    | zero => omega
    | succ f => simp [rankL, rankGo]
  | .node c l k sz r, fuel, key, acc, h => by
    cases fuel with
    | zero => omega
    | succ f =>
      have hm : max (heightT l) (heightT r) < f := by
        simpa [heightT, Nat.succ_lt_succ_iff] using h
      rw [rankL, rankGo]
      by_cases h1 : key < k
      · rw [if_pos h1, if_pos h1,
          rankL_eq l f key acc (lt_of_le_of_lt (le_max_left _ _) hm)]
      · rw [if_neg h1]
        by_cases h2 : k < key
        · rw [if_pos h2, if_neg h1, if_pos h2,
            rankL_eq r f key _ (lt_of_le_of_lt (le_max_right _ _) hm)]
          simp only [Option.some.injEq]
          omega
        · rw [if_neg h2, if_neg h1, if_neg h2]

theorem minL_eq : (t : RBT α) → ∀ fuel : Nat,
    heightT t < fuel → minL fuel t = some (minZ t []).1
  | .nil, fuel, h => by
    cases fuel with
    | zero => omega
    | succ f => rfl
  | .node c .nil k sz r, fuel, h => by
    cases fuel with
    | zero => omega
    | succ f => rfl
  | .node c (.node lc ll lk lsz lr) k sz r, fuel, h => by
    cases fuel with
    | zero => omega
    | succ f =>
      have hl : heightT (.node lc ll lk lsz lr) < f := by
        simp only [heightT] at h ⊢
        omega
      rw [minL, minL_eq (.node lc ll lk lsz lr) f hl]
      conv_rhs => rw [minZ, minZ_acc]

theorem updSzL_eq : (p : Path α) → ∀ (fuel m : Nat),
    p.length < fuel → updSzL fuel p m = some (updSz p m)
  | [], fuel, m, h => by
    cases fuel with
    | zero => omega
    | succ f => rfl
  | f0 :: rest, fuel, m, h => by
    cases fuel with
    | zero => omega
    | succ f =>
      have hr : rest.length < f := by
        simp only [List.length_cons] at h
        omega
      rw [updSzL, updSzL_eq rest f _ hr]
      rfl

theorem insFixL_exit : ∀ fuel : Nat, 1 ≤ fuel → ∀ (z : RBT α) (f : Frame α) (rest : Path α),
    f.c = .black → insFixL fuel z (f :: rest) = some (fill z (f :: rest)) := by
  intro fuel hf z f rest hfc
  cases fuel with
  | zero => omega
  | succ n =>
    cases rest with
    | nil => rfl
    | cons g rest' => simp [insFixL, hfc]

theorem delFixL_red : ∀ fuel : Nat, 1 ≤ fuel → ∀ (z : RBT α) (path : Path α),
    rootColor z = .red → delFixL fuel z path = some (fill (blackenRoot z) path) := by
  intro fuel hf z path hz
  cases fuel with
  | zero => omega
  | succ n =>
    cases path with
    | nil => rfl
    | cons p rest => simp [delFixL, hz]

end Gostree

namespace Gostree

set_option linter.unusedSectionVars false

variable {α : Type} [LinearOrder α]

theorem insFixL_eq : (path : Path α) → ∀ (fuel : Nat) (z : RBT α),
    path.length + 2 ≤ fuel → insFixL fuel z path = some (insFix z path)
  | [], fuel, z, h => by
    obtain ⟨f, rfl⟩ : ∃ f, fuel = f + 1 := ⟨fuel - 1, by omega⟩
    rfl
  | [p], fuel, z, h => by
    obtain ⟨f, rfl⟩ : ∃ f, fuel = f + 1 := ⟨fuel - 1, by omega⟩
    rfl
  | p :: g :: rest, fuel, z, h => by
    obtain ⟨f, rfl⟩ : ∃ f, fuel = f + 1 := ⟨fuel - 1, by omega⟩
    have hf1 : 1 ≤ f := by
      simp only [List.length_cons] at h
      omega
    obtain ⟨pd, pc, pk, psz, psib⟩ := p
    obtain ⟨gd, gc, gk, gsz, gsib⟩ := g
    rw [insFixL, insFix]
    by_cases hpc : pc = .black
    · simp [hpc]
    · rw [if_neg hpc, if_neg hpc]
      by_cases hu : rootColor gsib = .red
      · rw [if_pos hu, if_pos hu]
        exact insFixL_eq rest f _ (by simp only [List.length_cons] at h; omega)
      · rw [if_neg hu, if_neg hu]
        cases gd with
        | left =>
          have hz2 : (if pd = .right
              then leftRotateT (plugF ⟨pd, pc, pk, psz, psib⟩ z)
              else plugF ⟨pd, pc, pk, psz, psib⟩ z) ≠ .nil := by
            by_cases hpd : pd = .right
            · rw [if_pos hpd]
              exact leftRotateT_ne_nil (plugF_ne_nil _ z)
            · rw [if_neg hpd]
              exact plugF_ne_nil _ z
          obtain ⟨a, ka, sa, b, hbk⟩ := blackenRoot_of_ne_nil hz2
          simp only [hbk, rightRotateT]
          rw [insFixL_exit f hf1 _ _ _ rfl]
          rfl
        | right =>
          have hz2 : (if pd = .left
              then rightRotateT (plugF ⟨pd, pc, pk, psz, psib⟩ z)
              else plugF ⟨pd, pc, pk, psz, psib⟩ z) ≠ .nil := by
            by_cases hpd : pd = .left
            · rw [if_pos hpd]
              exact rightRotateT_ne_nil (plugF_ne_nil _ z)
            · rw [if_neg hpd]
              exact plugF_ne_nil _ z
          obtain ⟨a, ka, sa, b, hbk⟩ := blackenRoot_of_ne_nil hz2
          simp only [hbk, leftRotateT]
          rw [insFixL_exit f hf1 _ _ _ rfl]
          rfl

end Gostree

namespace Gostree

set_option linter.unusedSectionVars false

variable {α : Type} [LinearOrder α]

theorem delFixL_eq : (path : Path α) → ∀ (fuel : Nat) (z : RBT α),
    path.length + 1 ≤ fuel → delFixL fuel z path = some (delFix z path)
  | [], fuel, z, h => by
    obtain ⟨f, rfl⟩ : ∃ f, fuel = f + 1 := ⟨fuel - 1, by omega⟩
    rfl
  | p :: rest, fuel, z, h => by
    obtain ⟨f, rfl⟩ : ∃ f, fuel = f + 1 := ⟨fuel - 1, by omega⟩
    have hf1 : 1 ≤ f := by
      simp only [List.length_cons] at h
      omega
    obtain ⟨pd, pc, pk, psz, psib⟩ := p
    rw [delFixL, delFix]
    by_cases hz : rootColor z = .red
    · simp [hz]
    · rw [if_neg hz, if_neg hz]
      cases pd with
      | left =>
        match psib with
        | .node .red sl sk ssz sr =>
          by_cases hbb : rootColor (leftT sl) = .black ∧ rootColor (rightT sl) = .black
          · simp only [if_pos hbb]
            rw [delFixL_red f hf1 _ _ (by rfl)]
          · simp only [if_neg hbb]
        | .nil =>
          by_cases hbb : rootColor (leftT (RBT.nil : RBT α)) = .black ∧
              rootColor (rightT (RBT.nil : RBT α)) = .black
          · simp only [if_pos hbb]
            by_cases hpc : pc = .red
            · rw [if_pos (Or.inl hpc)]
              rw [delFixL_red f hf1 _ _ (by rw [rootColor_plugF]; exact hpc)]
            · cases rest with
              | nil =>
                rw [if_pos (Or.inr rfl)]
                cases f with
                | zero => omega
                | succ f' => rfl
              | cons q rest' =>
                rw [if_neg (by simp [hpc])]
                exact delFixL_eq (q :: rest') f _
                  (by simp only [List.length_cons] at h ⊢; omega)
          · simp only [if_neg hbb]
        | .node .black sl sk ssz sr =>
          by_cases hbb : rootColor (leftT (RBT.node .black sl sk ssz sr)) = .black ∧
              rootColor (rightT (RBT.node .black sl sk ssz sr)) = .black
          · simp only [if_pos hbb]
            by_cases hpc : pc = .red
            · rw [if_pos (Or.inl hpc)]
              rw [delFixL_red f hf1 _ _ (by rw [rootColor_plugF]; exact hpc)]
            · cases rest with
              | nil =>
                rw [if_pos (Or.inr rfl)]
                cases f with
                | zero => omega
                | succ f' => rfl
              | cons q rest' =>
                rw [if_neg (by simp [hpc])]
                exact delFixL_eq (q :: rest') f _
                  (by simp only [List.length_cons] at h ⊢; omega)
          · simp only [if_neg hbb]
      | right =>
        match psib with
        | .node .red sl sk ssz sr =>
          by_cases hbb : rootColor (rightT sr) = .black ∧ rootColor (leftT sr) = .black
          · simp only [if_pos hbb]
            rw [delFixL_red f hf1 _ _ (by rfl)]
          · simp only [if_neg hbb]
        | .nil =>
          by_cases hbb : rootColor (rightT (RBT.nil : RBT α)) = .black ∧
              rootColor (leftT (RBT.nil : RBT α)) = .black
          · simp only [if_pos hbb]
            by_cases hpc : pc = .red
            · rw [if_pos (Or.inl hpc)]
              rw [delFixL_red f hf1 _ _ (by rw [rootColor_plugF]; exact hpc)]
            · cases rest with
              | nil =>
                rw [if_pos (Or.inr rfl)]
                cases f with
                | zero => omega
                | succ f' => rfl
              | cons q rest' =>
                rw [if_neg (by simp [hpc])]
                exact delFixL_eq (q :: rest') f _
                  (by simp only [List.length_cons] at h ⊢; omega)
          · simp only [if_neg hbb]
        | .node .black sl sk ssz sr =>
          by_cases hbb : rootColor (rightT (RBT.node .black sl sk ssz sr)) = .black ∧
              rootColor (leftT (RBT.node .black sl sk ssz sr)) = .black
          · simp only [if_pos hbb]
            by_cases hpc : pc = .red
            · rw [if_pos (Or.inl hpc)]
              rw [delFixL_red f hf1 _ _ (by rw [rootColor_plugF]; exact hpc)]
            · cases rest with
              | nil =>
                rw [if_pos (Or.inr rfl)]
                cases f with
                | zero => omega
                | succ f' => rfl
              | cons q rest' =>
                rw [if_neg (by simp [hpc])]
                exact delFixL_eq (q :: rest') f _
                  (by simp only [List.length_cons] at h ⊢; omega)
          · simp only [if_neg hbb]

end Gostree

namespace Gostree

set_option linter.unusedSectionVars false

variable {α : Type} [LinearOrder α]

/-! ### The claims -/

/-- Claim C1: the claim says Rank(x) returns the number of elements
strictly less than x even with duplicates.  It is refuted by the code:
on the tree built by three Insert(5) calls, the in-order listing is
[5, 5, 5], no element is strictly less than 5, yet Rank(5) returns 1,
because the descent stops at the root occurrence (src/tree.go line 237)
and counts the occurrence stored in the root's left subtree. -/
theorem rank_strict_count_violation :
    rankGo (applyOps (newTree Int) [.insert 5, .insert 5, .insert 5]).root 5 = 1 ∧
      inorder (applyOps (newTree Int) [.insert 5, .insert 5, .insert 5]).root = [5, 5, 5] ∧
      (List.filter (fun x => decide (x < 5))
        (inorder (applyOps (newTree Int) [.insert 5, .insert 5, .insert 5]).root)).length
        = 0 := by
  decide

/-- Claim C2, counterexample: after Insert(10); Insert(5); Delete(5)
the sentinel's parent pointer no longer points to the sentinel itself —
transplant (src/tree.go line 306) sets it to the deleted node's parent,
a real node. -/
theorem sentinel_parent_violation :
    (applyOps (newTree Int) [.insert 10, .insert 5, .delete 5]).nilParentSelf = false := by
  decide

/-- Claim C2, amended: after every sequence of public operations the
sentinel is BLACK, has size 0, and its left and right links still point
to itself; the parent self-link holds for a fresh tree but is not
maintained by Delete. -/
theorem sentinel_fields_hold {t : GoTree α} (h : Reachable t) :
    t.nilColor = .black ∧ t.nilSize = 0 ∧ t.nilLeftSelf = true ∧
      t.nilRightSelf = true ∧ (newTree α).nilParentSelf = true := by
  have hwf := wf_reachable h
  exact ⟨hwf.2.2.2.1, hwf.2.2.2.2.1, hwf.2.2.2.2.2.1, hwf.2.2.2.2.2.2, rfl⟩

theorem sentinel_fields_hold_witness :
    (applyOps (newTree Int) [.insert 3, .delete 3]).nilColor = .black ∧
      (applyOps (newTree Int) [.insert 3, .delete 3]).nilSize = 0 ∧
      (applyOps (newTree Int) [.insert 3, .delete 3]).nilLeftSelf = true ∧
      (applyOps (newTree Int) [.insert 3, .delete 3]).nilRightSelf = true ∧
      (newTree Int).nilParentSelf = true :=
  sentinel_fields_hold ⟨[.insert 3, .delete 3], rfl⟩

/-- Claim C3: after every Insert and Delete (indeed in every reachable
state) the red-black color invariant holds: the root of the tree is
BLACK (the `Bal _ .black _` judgment), the sentinel is BLACK, no RED
node has a RED child (the `Bal.red` constructor requires BLACK
children), and every downward path from a node to a descendant sentinel
passes through the same number of BLACK nodes (the black-height index
of `Bal`). -/
theorem color_invariant_holds {t : GoTree α} (h : Reachable t) :
    (∃ n, Bal t.root .black n) ∧ t.nilColor = .black :=
  ⟨(wf_reachable h).1, (wf_reachable h).2.2.2.1⟩

theorem color_invariant_holds_witness :
    (∃ n, Bal (applyOps (newTree Int)
      [.insert 2, .insert 1, .insert 3, .insert 4, .delete 1]).root .black n) ∧
      (applyOps (newTree Int)
        [.insert 2, .insert 1, .insert 3, .insert 4, .delete 1]).nilColor = .black :=
  color_invariant_holds ⟨[.insert 2, .insert 1, .insert 3, .insert 4, .delete 1], rfl⟩

/-- Claim C4: in every reachable state every real node's size field
equals the size of its left child plus the size of its right child plus
one, and the sentinel's size is 0. -/
theorem size_invariant_holds {t : GoTree α} (h : Reachable t) :
    sizeOK t.root ∧ t.nilSize = 0 :=
  ⟨(wf_reachable h).2.1, (wf_reachable h).2.2.2.2.1⟩

theorem size_invariant_holds_witness :
    sizeOK (applyOps (newTree Int)
      [.insert 7, .insert 2, .insert 9, .insert 2, .delete 7]).root ∧
      (applyOps (newTree Int)
        [.insert 7, .insert 2, .insert 9, .insert 2, .delete 7]).nilSize = 0 :=
  size_invariant_holds ⟨[.insert 7, .insert 2, .insert 9, .insert 2, .delete 7], rfl⟩

/-- Claim C5: in every reachable state, Select(k) returns no key
exactly when k < 0 or k is at least the number of stored elements;
otherwise it returns the element at position k of the in-order listing,
which is sorted, i.e. the (k+1)-th smallest element of the stored
multiset (0-indexed). -/
theorem select_correct [Inhabited α] {t : GoTree α} (h : Reachable t) (k : Int) :
    (selectGo t.root k = none ↔ k < 0 ∨ ((inorder t.root).length : Int) ≤ k) ∧
      (0 ≤ k → k < ((inorder t.root).length : Int) →
        selectGo t.root k = some ((inorder t.root).getD k.toNat default)) ∧
      (inorder t.root).Sorted (· ≤ ·) := by
  have hwf := wf_reachable h
  obtain ⟨hsel1, hsel2⟩ := selectGo_spec hwf.2.1 k
  exact ⟨hsel1, hsel2, hwf.2.2.1⟩

theorem select_correct_witness :
    (selectGo (applyOps (newTree Int) [.insert 3, .insert 1, .insert 2]).root 1 = none ↔
        (1 : Int) < 0 ∨
          ((inorder (applyOps (newTree Int) [.insert 3, .insert 1, .insert 2]).root).length
            : Int) ≤ 1) ∧
      ((0 : Int) ≤ 1 →
        (1 : Int) <
          ((inorder (applyOps (newTree Int) [.insert 3, .insert 1, .insert 2]).root).length
            : Int) →
        selectGo (applyOps (newTree Int) [.insert 3, .insert 1, .insert 2]).root 1 =
          some ((inorder (applyOps (newTree Int)
            [.insert 3, .insert 1, .insert 2]).root).getD (1 : Int).toNat default)) ∧
      (inorder (applyOps (newTree Int)
        [.insert 3, .insert 1, .insert 2]).root).Sorted (· ≤ ·) :=
  select_correct ⟨[.insert 3, .insert 1, .insert 2], rfl⟩ 1

/-- Claim C6: in every reachable state, Delete(x) returns true exactly
when x occurs in the tree; when it returns false the whole tree state —
root subtree and all tracked sentinel fields — is unchanged, and a
repeated Delete of the same absent key again returns false. -/
theorem delete_absent_noop {t : GoTree α} (key : α) (h : Reachable t) :
    ((treeDelete t key).1 = true ↔ key ∈ inorder t.root) ∧
      ((treeDelete t key).1 = false → (treeDelete t key).2 = t) ∧
      ((treeDelete t key).1 = false →
        (treeDelete (treeDelete t key).2 key).1 = false) := by
  have hsort : (inorder t.root).Sorted (· ≤ ·) := (wf_reachable h).2.2.1
  have hfst : (treeDelete t key).1 = (deleteGo t.root key).1 := by
    rw [treeDelete]
  have hunch : (treeDelete t key).1 = false → (treeDelete t key).2 = t := by
    intro hb
    rw [hfst] at hb
    cases hs : searchZ t.root key [] with
    | some v =>
      rcases v with ⟨f0, p0⟩
      have h1 := (deleteGo_some hs).1
      rw [h1] at hb
      exact absurd hb (by simp)
    | none =>
      have hd : deleteGo t.root key = (false, t.root, none) := deleteGo_none hs
      rw [treeDelete, hd]
      cases t
      rfl
  refine ⟨by rw [hfst]; exact deleteGo_flag_iff hsort, hunch, ?_⟩
  intro hb
  rw [hunch hb]
  exact hb

theorem delete_absent_noop_witness :
    ((treeDelete (applyOps (newTree Int) [.insert 4, .insert 8]) 7).1 = true ↔
        (7 : Int) ∈ inorder (applyOps (newTree Int) [.insert 4, .insert 8]).root) ∧
      ((treeDelete (applyOps (newTree Int) [.insert 4, .insert 8]) 7).1 = false →
        (treeDelete (applyOps (newTree Int) [.insert 4, .insert 8]) 7).2 =
          applyOps (newTree Int) [.insert 4, .insert 8]) ∧
      ((treeDelete (applyOps (newTree Int) [.insert 4, .insert 8]) 7).1 = false →
        (treeDelete (treeDelete (applyOps (newTree Int) [.insert 4, .insert 8]) 7).2 7).1
          = false) :=
  delete_absent_noop 7 ⟨[.insert 4, .insert 8], rfl⟩

/-- Claim C7: the claim says Rank(Select(k)) is at most k for all valid
indices k.  It is refuted by the code: on the tree built by three
Insert(5) calls, Select(0) returns 5 and Rank(5) returns 1 > 0, the
violation the repository's own fuzz test checks for. -/
theorem rank_select_duality_violation :
    selectGo (applyOps (newTree Int) [.insert 5, .insert 5, .insert 5]).root 0 = some 5 ∧
      rankGo (applyOps (newTree Int) [.insert 5, .insert 5, .insert 5]).root 5 = 1 := by
  decide

/-- Claim C8: in every reachable state — in particular after every
Insert and every Delete — the in-order traversal of the tree is
non-decreasing under the order. -/
theorem inorder_nondecreasing {t : GoTree α} (h : Reachable t) :
    (inorder t.root).Sorted (· ≤ ·) :=
  (wf_reachable h).2.2.1

theorem inorder_nondecreasing_witness :
    (inorder (applyOps (newTree Int)
      [.insert 9, .insert 4, .insert 6, .delete 9]).root).Sorted (· ≤ ·) :=
  inorder_nondecreasing ⟨[.insert 9, .insert 4, .insert 6, .delete 9], rfl⟩

/-- Claim C9: every loop of the implementation terminates: the fueled
translations of the insertFixup and deleteFixup while-loops and of the
five descent loops, in which each recursive call consumes one unit of
fuel per loop iteration, all return a result within an explicit fuel
bound (path length plus a constant for the fixups, tree height plus one
for the descents), and agree with the structural translations. -/
theorem loops_terminate :
    (∀ (z : RBT α) (path : Path α),
      insFixL (path.length + 2) z path = some (insFix z path)) ∧
      (∀ (z : RBT α) (path : Path α),
        delFixL (path.length + 1) z path = some (delFix z path)) ∧
      (∀ (t : RBT α) (key : α) (acc : Path α),
        descendL (heightT t + 1) t key acc = some (descend t key acc)) ∧
      (∀ (t : RBT α) (key : α),
        searchL (heightT t + 1) t key = some (searchGo t key)) ∧
      (∀ (t : RBT α) (j : Nat),
        selectL (heightT t + 1) t j = some (selectNodeGo t j)) ∧
      (∀ (t : RBT α) (key : α) (acc : Nat),
        rankL (heightT t + 1) t key acc = some (acc + rankGo t key)) ∧
      (∀ t : RBT α, minL (heightT t + 1) t = some (minZ t []).1) ∧
      (∀ (p : Path α) (m : Nat), updSzL (p.length + 1) p m = some (updSz p m)) := by
  refine ⟨fun z path => insFixL_eq path _ z (by omega),
    fun z path => delFixL_eq path _ z (by omega),
    fun t key acc => descendL_eq t _ key acc (by omega),
    fun t key => searchL_eq t _ key [] (by omega),
    fun t j => selectL_eq t _ j (by omega),
    fun t key acc => rankL_eq t _ key acc (by omega),
    fun t => minL_eq t _ (by omega),
    fun p m => updSzL_eq p _ m (by omega)⟩

/-- Claim C10: in every reachable state, when Delete(x) returns true it
removes exactly one occurrence of x: the count of x in the stored
multiset drops by one, every other key's count is unchanged, and the
total element count drops by one. -/
theorem delete_removes_exactly_one {t : GoTree α} (key : α) (h : Reachable t)
    (hmem : key ∈ inorder t.root) :
    (treeDelete t key).1 = true ∧
      List.count key (inorder (treeDelete t key).2.root) + 1 =
        List.count key (inorder t.root) ∧
      (∀ x : α, x ≠ key →
        List.count x (inorder (treeDelete t key).2.root) =
          List.count x (inorder t.root)) ∧
      (inorder (treeDelete t key).2.root).length + 1 = (inorder t.root).length := by
  have hsort : (inorder t.root).Sorted (· ≤ ·) := (wf_reachable h).2.2.1
  have hroot : (treeDelete t key).2.root = (deleteGo t.root key).2.1 := by
    rw [treeDelete]
  have hfst : (treeDelete t key).1 = (deleteGo t.root key).1 := by
    rw [treeDelete]
  obtain ⟨h1, h2, h3⟩ := deleteGo_count hsort hmem
  rw [hroot, hfst]
  exact ⟨(deleteGo_flag_iff hsort).2 hmem, h1, h2, h3⟩

theorem delete_removes_exactly_one_witness :
    (treeDelete (applyOps (newTree Int) [.insert 5, .insert 3, .insert 5]) 5).1 = true ∧
      List.count 5 (inorder (treeDelete (applyOps (newTree Int)
        [.insert 5, .insert 3, .insert 5]) 5).2.root) + 1 =
        List.count 5 (inorder (applyOps (newTree Int)
          [.insert 5, .insert 3, .insert 5]).root) ∧
      (∀ x : Int, x ≠ 5 →
        List.count x (inorder (treeDelete (applyOps (newTree Int)
          [.insert 5, .insert 3, .insert 5]) 5).2.root) =
          List.count x (inorder (applyOps (newTree Int)
            [.insert 5, .insert 3, .insert 5]).root)) ∧
      (inorder (treeDelete (applyOps (newTree Int)
        [.insert 5, .insert 3, .insert 5]) 5).2.root).length + 1 =
        (inorder (applyOps (newTree Int)
          [.insert 5, .insert 3, .insert 5]).root).length :=
  delete_removes_exactly_one 5 ⟨[.insert 5, .insert 3, .insert 5], rfl⟩ (by decide)

end Gostree
